import Mathlib

/-!
Verification of the code-generation backend (`prost-build/src/code_generator.rs`).

This file gives a shallow embedding of the code generator: the descriptor data
model, the emission state, and the generator's functions, translated from the
Rust source.  Machine bytes are modelled as `Nat` with explicit range facts,
strings as Lean `String`/`List Char`, and every panicking operation (asserts,
`unwrap`, out-of-range indexing/slicing) as an `Except` error.  External
collaborators that are not part of the sources (the identifier case-conversion
library, the comment rendering, the message-graph recursion oracle) are
modelled from the specification and are marked as such in their doc comments.

The generator additionally records a `trace` of the declarations it emits
(struct declarations, field declarations with their container shape, enum
declarations and values, oneof declarations).  The trace is pure
instrumentation: an entry is appended exactly where the source writes the
corresponding declaration into the output buffer, and nothing in the embedded
code reads it back.
-/

set_option maxHeartbeats 1000000
set_option linter.unnecessarySeqFocus false

namespace Prost

/-- Decidable equality for `Except`, used to settle concrete runs of the
embedded generator with `decide`. -/
instance {ε α : Type} [DecidableEq ε] [DecidableEq α] : DecidableEq (Except ε α) := fun a b =>
  match a, b with
  | .error e, .error f =>
    if h : e = f then .isTrue (by rw [h]) else .isFalse (fun hh => by cases hh; exact h rfl)
  | .error _, .ok _ => .isFalse (fun hh => by cases hh)
  | .ok _, .error _ => .isFalse (fun hh => by cases hh)
  | .ok x, .ok y =>
    if h : x = y then .isTrue (by rw [h]) else .isFalse (fun hh => by cases hh; exact h rfl)

/-! ## Descriptor data model (the fields read by the code generator) -/

/-- Wire types of `prost_types::field_descriptor_proto::Type`.  `bool`,
`string` and `enum` are Lean keywords, hence the `T` suffixes. -/
inductive FType where
  | double | float | int64 | uint64 | int32 | fixed64 | fixed32 | boolT
  | stringT | group | message | bytes | uint32 | enumT | sfixed32 | sfixed64
  | sint32 | sint64
deriving DecidableEq

structure FieldOptions where
  packed : Option Bool
deriving DecidableEq

/-- `FieldDescriptorProto`, restricted to the fields the generator reads.
`label` is kept as the raw `Option i32` because the source reads it both
raw (`field.label == Some(Label::Repeated as i32)`) and through the
defaulting accessor `field.label()`. -/
structure FieldDescriptorProto where
  name : String
  number : Int
  label : Option Int
  ftype : FType
  type_name : Option String
  default_value : Option String
  oneof_index : Option Int
  options : Option FieldOptions
deriving DecidableEq

structure EnumValueDescriptorProto where
  name : String
  number : Int
deriving DecidableEq

structure EnumDescriptorProto where
  name : String
  value : List EnumValueDescriptorProto
deriving DecidableEq

structure OneofDescriptorProto where
  name : String
deriving DecidableEq

structure MessageOptions where
  map_entry : Option Bool
deriving DecidableEq

/-- `DescriptorProto` (a message descriptor); nested recursively through
`nested_type` exactly as in `prost_types`. -/
structure DescriptorProto where
  name : String
  field : List FieldDescriptorProto
  oneof_decl : List OneofDescriptorProto
  nested_type : List DescriptorProto
  enum_type : List EnumDescriptorProto
  options : Option MessageOptions

/-- One `source_code_info.location` entry: a structural path and the attached
comment.  The comment payload is collapsed to an optional leading comment,
which is all the comment renderer consumes. -/
structure Location where
  path : List Int
  leading_comments : Option String
deriving DecidableEq

/-- `FileDescriptorProto`, restricted to what `generate` reads.  The source
field named `syntax` is called `dialectStr` here (`syntax` is reserved). -/
structure FileDescriptorProto where
  name : Option String
  package : Option String
  message_type : List DescriptorProto
  enum_type : List EnumDescriptorProto
  dialectStr : Option String
  source_code_info : Option (List Location)

/-- The source's two-variant `Syntax` enum (proto2 vs proto3). -/
inductive Dialect where
  | proto2 | proto3
deriving DecidableEq

/-- The configuration fields the generator reads.  The service generator hook
is an external collaborator (spec section 1) and is not modelled; `generate`
below accordingly omits the service branch.  The source field
`strip_enum_prefix` is named `stripEnumPrefixFlag` here. -/
structure Config where
  type_attributes : List (String × String)
  field_attributes : List (String × String)
  btree_map : List String
  stripEnumPrefixFlag : Bool
  prost_types : Bool
  mapped_types : List (String × String)
deriving DecidableEq

/-! ## Observable trace of emitted declarations -/

/-- Container shape of one emitted field declaration.  For a plain field the
flags record the `Option` wrapper, the `Vec` wrapper and the `Box` wrapper
decisions, and `attr` is the full `#[prost(...)]` attribute line. -/
inductive FieldKind where
  | plain (optionalWrap repeatedWrap boxed : Bool) (attr : String)
  | mapField (key value : FieldDescriptorProto)
deriving DecidableEq

/-- One emitted declaration.  `structDecl` records the fully-qualified name of
the message a `pub struct` was emitted for together with its map-entry flag. -/
inductive Emitted where
  | structDecl (fqName : String) (mapEntryFlag : Bool)
  | enumDecl (fqName : String)
  | enumValue (name : String) (number : Int)
  | fieldDecl (name : String) (kind : FieldKind)
  | oneofFieldDecl (name : String) (tags : List Int)
  | oneofDecl (name : String)
deriving DecidableEq

/-- Fatal faults: each corresponds to a `panic!`, a failed `assert`, a failed
`unwrap`, or an out-of-bounds index/slice in the source. -/
inductive GenErr where
  | locationMissing
  | unknownDialect
  | indexOutOfBounds
  | assertFailed
  | oneofCountMismatch
  | missingOneofGroup
  | packageUnwrap
  | popModNoDot
  | noSourceCodeInfo
  | unwrapNone
  | identNotFullyQualified
deriving DecidableEq

/-- The mutable emission state (the `CodeGenerator` struct).  The message
graph is the external recursion oracle, modelled as an opaque boolean query
as in the spec (section 3, RecursionOracle). -/
structure CodeGenerator where
  config : Config
  package : String
  source_info : List Location
  dialect : Dialect
  is_nested : String → String → Bool
  depth : Nat
  path : List Int
  buf : String
  trace : List Emitted

/-! ## String helpers

All string manipulation is done with structurally recursive functions over
`List Char` so that concrete runs reduce inside the kernel. -/

/-- Split a character list at every occurrence of `sep`, keeping empty
segments, matching Rust `str::split(char)` (so `"".split = [""]`). -/
def splitCharsAux (sep : Char) : List Char → List Char → List (List Char)
  | [], acc => [acc.reverse]
  | c :: cs, acc =>
    if c = sep then acc.reverse :: splitCharsAux sep cs []
    else splitCharsAux sep cs (c :: acc)

def splitChar (sep : Char) (s : String) : List String :=
  (splitCharsAux sep s.data []).map String.mk

def splitOnDot (s : String) : List String := splitChar '.' s

/-- Drop everything from the last dot (inclusive); `none` when there is no
dot.  This is `package.truncate(package.rfind('.').unwrap())`. -/
def truncSuffix : List Char → Option (List Char)
  | [] => none
  | c :: cs =>
    match truncSuffix cs with
    | some cs2 => some (c :: cs2)
    | none => if c = '.' then some [] else none

def truncateAtLastDot (s : String) : Option String :=
  (truncSuffix s.data).map String.mk

/-- Modelled from the spec: the naming-transform library's to-snake-case
function (spec section 1 lists it as an external collaborator; `ident.rs` is
not part of the sources).  Lowercases every letter and inserts an underscore
before an uppercase letter that does not start the identifier. -/
def toSnakeChars (first : Bool) : List Char → List Char
  | [] => []
  | c :: cs =>
    if c.isUpper then
      (if first then [c.toLower] else ['_', c.toLower]) ++ toSnakeChars false cs
    else c :: toSnakeChars false cs

def to_snake (s : String) : String := String.mk (toSnakeChars true s.data)

/-- Capitalize the first character of a segment and lowercase the rest. -/
def capitalizeChars : List Char → List Char
  | [] => []
  | c :: cs => c.toUpper :: cs.map Char.toLower

/-- Modelled from the spec: the naming-transform library's
to-upper-camel-case function (external collaborator, see `to_snake`).
Splits on underscores, capitalizes each segment, and concatenates. -/
def to_upper_camel (s : String) : String :=
  String.mk (((splitCharsAux '_' s.data []).map capitalizeChars).flatten)

/-- Modelled from the spec: the customization-rule matcher (spec section 6,
"attribute-injection rules keyed by glob-like name/field matchers";
`ident.rs` is not part of the sources).  A matcher matches a message name, or
a message name plus field. -/
def match_ident (matcher : String) (msg_name : String) (field_name : Option String) : Bool :=
  match field_name with
  | none => matcher == msg_name
  | some f => matcher == msg_name || matcher == msg_name ++ "." ++ f

/-- Bool substring test used only in theorem statements. -/
def containsSeq (needle : List Char) : List Char → Bool
  | [] => needle.isPrefixOf ([] : List Char)
  | c :: rest => needle.isPrefixOf (c :: rest) || containsSeq needle rest

def strContains (hay needle : String) : Bool := containsSeq needle.data hay.data

/-! ## Default byte-string literal decoding and re-encoding

`unescape_c_escape_string` works on the bytes of the input `&str`; the
embedding takes the byte list directly (`List Nat`, each entry a byte). -/

/-- The distinct panics of `unescape_c_escape_string`, plus the Rust runtime
panic raised by the string slice `&s[p+1..p+3]` when it reaches past the end
of the input. -/
inductive UnescapeErr where
  | endsWithBackslash
  | incompleteHexValue
  | invalidHexValue
  | invalidEscape
  | sliceOutOfBounds
deriving DecidableEq

def hexVal (c : Nat) : Option Nat :=
  if 48 ≤ c ∧ c ≤ 57 then some (c - 48)
  else if 97 ≤ c ∧ c ≤ 102 then some (c - 87)
  else if 65 ≤ c ∧ c ≤ 70 then some (c - 55)
  else none

/-- `u8::from_str_radix` on the two-character slice, radix 16.  It accepts an
optional leading plus sign (a quirk of `from_str_radix`); a leading minus or
any non-hex character is an error. -/
def rustU8FromStrRadix16 (a b : Nat) : Option Nat :=
  if a = 43 then hexVal b
  else
    match hexVal a, hexVal b with
    | some x, some y => some (16 * x + y)
    | _, _ => none

mutual

/-- Shallow embedding of `unescape_c_escape_string`.  The while loop over the
byte index `p` becomes structural recursion on the remaining byte list:
`unescapeBytes l` is the loop with `l` the bytes from `p` on, and
`unescapeStep c rest` is one loop iteration with `src[p] = c` and `rest` the
bytes after it (the octal branch continues the loop at the first non-octal
byte, which is the mutual call).  In the hex branch the source guards with
`p + 2 > len` (a single remaining byte after the `x` passes the guard) and
then slices `&s[p+1..p+3]`; a slice end past `len` is the Rust out-of-bounds
index panic, modelled as `sliceOutOfBounds`.  The octal accumulator is a
`u8`; release-mode wrapping is modelled with `% 256` on the three-digit
value (one and two octal digits never exceed 255). -/
def unescapeBytes : List Nat → Except UnescapeErr (List Nat)
  | [] => .ok []
  | c :: rest => unescapeStep c rest

def unescapeStep (c : Nat) (rest : List Nat) : Except UnescapeErr (List Nat) :=
  if c ≠ 92 then (unescapeBytes rest).map (fun d => c :: d)
  else
    match rest with
    | [] => .error .endsWithBackslash
    | e :: rest2 =>
      if e = 97 then (unescapeBytes rest2).map (fun d => 7 :: d)
      else if e = 98 then (unescapeBytes rest2).map (fun d => 8 :: d)
      else if e = 102 then (unescapeBytes rest2).map (fun d => 12 :: d)
      else if e = 110 then (unescapeBytes rest2).map (fun d => 10 :: d)
      else if e = 114 then (unescapeBytes rest2).map (fun d => 13 :: d)
      else if e = 116 then (unescapeBytes rest2).map (fun d => 9 :: d)
      else if e = 118 then (unescapeBytes rest2).map (fun d => 11 :: d)
      else if e = 92 then (unescapeBytes rest2).map (fun d => 92 :: d)
      else if e = 63 then (unescapeBytes rest2).map (fun d => 63 :: d)
      else if e = 39 then (unescapeBytes rest2).map (fun d => 39 :: d)
      else if e = 34 then (unescapeBytes rest2).map (fun d => 34 :: d)
      else if 48 ≤ e ∧ e ≤ 55 then
        match rest2 with
        | [] => .ok [e - 48]
        | d2 :: rest3 =>
          if 48 ≤ d2 ∧ d2 ≤ 55 then
            match rest3 with
            | [] => .ok [(e - 48) * 8 + (d2 - 48)]
            | d3 :: rest4 =>
              if 48 ≤ d3 ∧ d3 ≤ 55 then
                (unescapeBytes rest4).map
                  (fun d => ((((e - 48) * 8 + (d2 - 48)) * 8 + (d3 - 48)) % 256) :: d)
              else (unescapeStep d3 rest4).map
                  (fun d => ((e - 48) * 8 + (d2 - 48)) :: d)
          else (unescapeStep d2 rest3).map (fun d => (e - 48) :: d)
      else if e = 120 ∨ e = 88 then
        match rest2 with
        | [] => .error .incompleteHexValue
        | [_] => .error .sliceOutOfBounds
        | d1 :: d2 :: rest3 =>
          match rustU8FromStrRadix16 d1 d2 with
          | some b => (unescapeBytes rest3).map (fun d => b :: d)
          | none => .error .invalidHexValue
      else .error .invalidEscape

end

def hexDigitLower (n : Nat) : Nat := if n < 10 then 48 + n else 87 + n

/-- Shallow embedding of `std::ascii::escape_default` on one byte: tab, CR,
LF, backslash, single and double quote become two-character escapes, other
printable ASCII passes through, everything else becomes `\xNN` with
lowercase hex digits. -/
def asciiEscapeDefault (b : Nat) : List Nat :=
  if b = 9 then [92, 116]
  else if b = 13 then [92, 114]
  else if b = 10 then [92, 110]
  else if b = 92 then [92, 92]
  else if b = 39 then [92, 39]
  else if b = 34 then [92, 34]
  else if 32 ≤ b ∧ b ≤ 126 then [b]
  else [92, 120, hexDigitLower (b / 16), hexDigitLower (b % 16)]

/-- Minimal hex digit expansion (used only in the `\u` branch below, which is
unreachable for the printable output of `asciiEscapeDefault`). -/
def hexDigitsMin (n : Nat) : List Nat :=
  if _h : n < 16 then [hexDigitLower n]
  else hexDigitsMin (n / 16) ++ [hexDigitLower (n % 16)]
termination_by n
decreasing_by
  exact Nat.div_lt_self (by omega) (by omega)

/-- Shallow embedding of `char::escape_default` (restricted to scalar values
seen as code points): the named escapes and quote/backslash escapes, printable
ASCII as itself, and `\u` + braces + hex digits otherwise. -/
def charEscapeDefault (c : Nat) : List Nat :=
  if c = 9 then [92, 116]
  else if c = 13 then [92, 114]
  else if c = 10 then [92, 110]
  else if c = 92 then [92, 92]
  else if c = 39 then [92, 39]
  else if c = 34 then [92, 34]
  else if 32 ≤ c ∧ c ≤ 126 then [c]
  else [92, 117, 123] ++ hexDigitsMin c ++ [125]

/-- The byte-string default encoder of `append_field` (source line 300):
each raw byte is passed through `ascii::escape_default` and every character
of that escape is passed through `char::escape_default` (the second layer
quotes the escape for embedding in the attribute string literal). -/
def escape_bytes_default (bs : List Nat) : List Nat :=
  bs.flatMap (fun b => (asciiEscapeDefault b).flatMap charEscapeDefault)

/-! ## Name resolution -/

/-- The common-prefix-skipping loop of `resolve_ident`. -/
def skipCommon : List String → List String → List String × List String
  | [], ys => ([], ys)
  | x :: xs, [] => (x :: xs, [])
  | x :: xs, y :: ys =>
    if x = y then skipCommon xs ys else (x :: xs, y :: ys)

/-- Shallow embedding of `CodeGenerator::resolve_ident`.  The source asserts
that the identifier starts with a dot (a non-conforming or empty identifier
panics), splits off the final type name, skips the common leading scope, and
joins ascend (`super`) tokens, descend tokens and the type name with `::`. -/
def resolve_ident (package : String) (pb_ident : String) : Except GenErr String :=
  if pb_ident.take 1 = "." then
    let local_path := splitOnDot package
    let ident_full := splitOnDot (pb_ident.drop 1)
    match ident_full.getLast? with
    | none => .error .unwrapNone
    | some ident_type =>
      let ident_path := ident_full.dropLast
      let rests := skipCommon local_path ident_path
      .ok (String.intercalate "::"
        (rests.1.map (fun _ => "super") ++ rests.2.map to_snake ++ [to_upper_camel ident_type]))
  else .error .identNotFullyQualified

/-! ## Generic Except reduction lemmas (proof plumbing) -/

theorem except_map_ok {ε α β : Type} (f : α → β) (a : α) :
    (Except.ok a : Except ε α).map f = .ok (f a) := rfl

theorem except_map_error {ε α β : Type} (f : α → β) (e : ε) :
    (Except.error e : Except ε α).map f = .error e := rfl

theorem except_bind_ok {ε α β : Type} (f : α → Except ε β) (a : α) :
    (Except.ok a : Except ε α).bind f = f a := rfl

theorem except_bind_error {ε α β : Type} (f : α → Except ε β) (e : ε) :
    (Except.error e : Except ε α).bind f = .error e := rfl

/-! ## Field accessors (the prost-generated defaulting accessors) -/

/-- The accessor `field.label()`: the raw value defaulted/normalized to
`Label::Optional = 1` when absent or unrecognized (2 = Required,
3 = Repeated). -/
def labelAccessor (f : FieldDescriptorProto) : Int :=
  match f.label with
  | some 2 => 2
  | some 3 => 3
  | _ => 1

/-- The accessor `field.type_name()`: the string defaulted to `""`. -/
def typeNameAccessor (f : FieldDescriptorProto) : String := f.type_name.getD ""

/-- The accessor `options.packed()`: defaulted to `false`. -/
def packedAccessor (o : FieldOptions) : Bool := o.packed.getD false

/-- The accessor chain
`options.as_ref().and_then(|options| options.map_entry).unwrap_or(false)`
deciding whether a nested type is a synthetic map entry. -/
def isMapEntry (d : DescriptorProto) : Bool :=
  (d.options.bind MessageOptions.map_entry).getD false

/-! ## Known (well-known / user-mapped) types -/

/-- `CodeGenerator::well_known_type`: the closed catalogue of well-known
Protobuf types, substituted only when `prost_types` is enabled.  The entry
for `EnumDescriptorProto` reproduces the source's typo
(`EnumDescriptorProt`). -/
def well_known_type (config : Config) (fq_msg_type : String) : Option String :=
  if !config.prost_types then none
  else
    match fq_msg_type with
    | ".google.protobuf.BoolValue" => some "bool"
    | ".google.protobuf.BytesValue" => some "::std::vec::Vec<u8>"
    | ".google.protobuf.DoubleValue" => some "f64"
    | ".google.protobuf.Empty" => some "()"
    | ".google.protobuf.FloatValue" => some "f32"
    | ".google.protobuf.Int32Value" => some "i32"
    | ".google.protobuf.Int64Value" => some "i64"
    | ".google.protobuf.StringValue" => some "::std::string::String"
    | ".google.protobuf.UInt32Value" => some "u32"
    | ".google.protobuf.UInt64Value" => some "u64"
    | ".google.protobuf.Any" => some "::prost_types::Any"
    | ".google.protobuf.Api" => some "::prost_types::Api"
    | ".google.protobuf.DescriptorProto" => some "::prost_types::DescriptorProto"
    | ".google.protobuf.Duration" => some "::prost_types::Duration"
    | ".google.protobuf.Enum" => some "::prost_types::Enum"
    | ".google.protobuf.EnumDescriptorProto" => some "::prost_types::EnumDescriptorProt"
    | ".google.protobuf.EnumOptions" => some "::prost_types::EnumOptions"
    | ".google.protobuf.EnumValue" => some "::prost_types::EnumValue"
    | ".google.protobuf.EnumValueDescriptorProto" => some "::prost_types::EnumValueDescriptorProto"
    | ".google.protobuf.EnumValueOptions" => some "::prost_types::EnumValueOptions"
    | ".google.protobuf.ExtensionRangeOptions" => some "::prost_types::ExtensionRangeOptions"
    | ".google.protobuf.Field" => some "::prost_types::Field"
    | ".google.protobuf.FieldDescriptorProto" => some "::prost_types::FieldDescriptorProto"
    | ".google.protobuf.FieldMask" => some "::prost_types::FieldMask"
    | ".google.protobuf.FieldOptions" => some "::prost_types::FieldOptions"
    | ".google.protobuf.FileDescriptorProto" => some "::prost_types::FileDescriptorProto"
    | ".google.protobuf.FileDescriptorSet" => some "::prost_types::FileDescriptorSet"
    | ".google.protobuf.FileOptions" => some "::prost_types::FileOptions"
    | ".google.protobuf.GeneratedCodeInfo" => some "::prost_types::GeneratedCodeInfo"
    | ".google.protobuf.ListValue" => some "::prost_types::ListValue"
    | ".google.protobuf.MessageOptions" => some "::prost_types::MessageOptions"
    | ".google.protobuf.Method" => some "::prost_types::Method"
    | ".google.protobuf.MethodDescriptorProto" => some "::prost_types::MethodDescriptorProto"
    | ".google.protobuf.MethodOptions" => some "::prost_types::MethodOptions"
    | ".google.protobuf.Mixin" => some "::prost_types::Mixin"
    | ".google.protobuf.NullValue" => some "::prost_types::NullValue"
    | ".google.protobuf.OneofDescriptorProto" => some "::prost_types::OneofDescriptorProto"
    | ".google.protobuf.OneofOptions" => some "::prost_types::OneofOptions"
    | ".google.protobuf.Option" => some "::prost_types::Option"
    | ".google.protobuf.ServiceDescriptorProto" => some "::prost_types::ServiceDescriptorProto"
    | ".google.protobuf.ServiceOptions" => some "::prost_types::ServiceOptions"
    | ".google.protobuf.SourceCodeInfo" => some "::prost_types::SourceCodeInfo"
    | ".google.protobuf.SourceContext" => some "::prost_types::SourceContext"
    | ".google.protobuf.Struct" => some "::prost_types::Struct"
    | ".google.protobuf.Timestamp" => some "::prost_types::Timestamp"
    | ".google.protobuf.Type" => some "::prost_types::Type"
    | ".google.protobuf.UninterpretedOption" => some "::prost_types::UninterpretedOption"
    | ".google.protobuf.Value" => some "::prost_types::Value"
    | _ => none

/-- `CodeGenerator::known_type`: well-known types first, then the
user-supplied type override table (`mapped_types`, an exact-name map). -/
def known_type (config : Config) (fq_msg_type : String) : Option String :=
  (well_known_type config fq_msg_type).orElse
    (fun _ => (config.mapped_types.find? (fun p => p.1 == fq_msg_type)).map Prod.snd)

/-! ## Output assembler and comment attacher -/

def indentOf : Nat → String
  | 0 => ""
  | n + 1 => indentOf n ++ "    "

/-- State helpers.  Every state transformation destructures the generator and
rebuilds it, so that evaluation shares the intermediate state instead of
re-projecting it (the functional reading of the source's in-place mutation). -/
def pushStr : CodeGenerator → String → CodeGenerator
  | ⟨cfg, pkg, si, dia, orac, dep, pa, buf, tr⟩, s => ⟨cfg, pkg, si, dia, orac, dep, pa, buf ++ s, tr⟩

/-- `CodeGenerator::push_indent`. -/
def pushIndent : CodeGenerator → CodeGenerator
  | ⟨cfg, pkg, si, dia, orac, dep, pa, buf, tr⟩ =>
    ⟨cfg, pkg, si, dia, orac, dep, pa, buf ++ indentOf dep, tr⟩

/-- `self.path.push(i)`. -/
def pushPath : CodeGenerator → Int → CodeGenerator
  | ⟨cfg, pkg, si, dia, orac, dep, pa, buf, tr⟩, i => ⟨cfg, pkg, si, dia, orac, dep, pa ++ [i], buf, tr⟩

/-- `self.path.pop()`. -/
def popPath : CodeGenerator → CodeGenerator
  | ⟨cfg, pkg, si, dia, orac, dep, pa, buf, tr⟩ => ⟨cfg, pkg, si, dia, orac, dep, pa.dropLast, buf, tr⟩

/-- `self.depth += 1`. -/
def depthInc : CodeGenerator → CodeGenerator
  | ⟨cfg, pkg, si, dia, orac, dep, pa, buf, tr⟩ => ⟨cfg, pkg, si, dia, orac, dep + 1, pa, buf, tr⟩

/-- `self.depth -= 1`. -/
def depthDec : CodeGenerator → CodeGenerator
  | ⟨cfg, pkg, si, dia, orac, dep, pa, buf, tr⟩ => ⟨cfg, pkg, si, dia, orac, dep - 1, pa, buf, tr⟩

/-- Trace instrumentation: record one emitted declaration. -/
def appendTrace : CodeGenerator → Emitted → CodeGenerator
  | ⟨cfg, pkg, si, dia, orac, dep, pa, buf, tr⟩, e => ⟨cfg, pkg, si, dia, orac, dep, pa, buf, tr ++ [e]⟩

/-- `CodeGenerator::push_mod`: emit the module header, extend the dotted
package scope with the raw module name, and deepen the indentation. -/
def push_mod (cg : CodeGenerator) (module : String) : CodeGenerator :=
  match pushStr (pushIndent cg) ("pub mod " ++ to_snake module ++ " \x7b\n") with
  | ⟨cfg, pkg, si, dia, orac, dep, pa, buf, tr⟩ =>
    ⟨cfg, pkg ++ "." ++ module, si, dia, orac, dep + 1, pa, buf, tr⟩

/-- `CodeGenerator::pop_mod`: shrink indentation, truncate the package at its
last dot (`rfind('.').unwrap()` panics when there is no dot), and close the
module. -/
def pop_mod (cg : CodeGenerator) : Except GenErr CodeGenerator :=
  match cg with
  | ⟨cfg, pkg, si, dia, orac, dep, pa, buf, tr⟩ =>
    match truncateAtLastDot pkg with
    | none => .error .popModNoDot
    | some pkg2 =>
      .ok (pushStr (pushIndent ⟨cfg, pkg2, si, dia, orac, dep - 1, pa, buf, tr⟩) "\x7d\n")

def intCompare (a b : Int) : Ordering :=
  if a < b then .lt else if b < a then .gt else .eq

/-- Lexicographic comparison of structural paths (the `Ord` instance of
`Vec<i32>`): elementwise, with the shorter path smaller at a prefix. -/
def listIntCompare : List Int → List Int → Ordering
  | [], [] => .eq
  | [], _ :: _ => .lt
  | _ :: _, [] => .gt
  | a :: as, b :: bs =>
    match intCompare a b with
    | .eq => listIntCompare as bs
    | o => o

def pathLe (a b : List Int) : Bool :=
  match listIntCompare a b with
  | .gt => false
  | _ => true

/-- The binary search of `slice::binary_search_by_key` on the location index,
with the loop bound made explicit as a structural fuel argument (the halving
loop runs at most `len` times since the interval shrinks every iteration).
Returns the index of some element whose path compares equal. -/
def binarySearchGo (locs : List Location) (target : List Int) :
    Nat → Nat → Nat → Option Nat
  | 0, _, _ => none
  | fuel + 1, lo, hi =>
    if lo < hi then
      let mid := (lo + hi) / 2
      match locs[mid]? with
      | none => none
      | some loc =>
        match listIntCompare loc.path target with
        | .lt => binarySearchGo locs target fuel (mid + 1) hi
        | .gt => binarySearchGo locs target fuel lo mid
        | .eq => some mid
    else none

def binarySearchPath (locs : List Location) (target : List Int) : Option Nat :=
  binarySearchGo locs target locs.length 0 locs.length

/-- `CodeGenerator::location`: exact binary search for the current structural
path; a missing entry is the `unwrap` panic on the `Err` result. -/
def location (cg : CodeGenerator) : Except GenErr Location :=
  match binarySearchPath cg.source_info cg.path with
  | none => .error .locationMissing
  | some idx =>
    match cg.source_info[idx]? with
    | none => .error .indexOutOfBounds
    | some loc => .ok loc

/-- Modelled from the spec: comment rendering (`Comments::from_location` and
`append_with_indent` live in `ast.rs`, which is not part of the sources; the
spec says comments are rendered one indentation-prefixed line per comment
line, in original order).  An absent comment renders nothing. -/
def renderComments (depth : Nat) (loc : Location) : String :=
  match loc.leading_comments with
  | none => ""
  | some c =>
    ((splitCharsAux '\n' c.data []).map
      (fun line => (indentOf depth).data ++ ('/' :: '/' :: '/' :: line) ++ ['\n'])).flatten
      |> String.mk

/-- `CodeGenerator::append_doc`: look the current path up (fatal when
missing) and render the attached comment. -/
def append_doc (cg : CodeGenerator) : Except GenErr CodeGenerator :=
  match location cg with
  | .error e => .error e
  | .ok loc => .ok (pushStr cg (renderComments cg.depth loc))

/-! ## Attribute injection -/

/-- `CodeGenerator::append_type_attributes`: assert the name is fully
qualified, then push every matching configured attribute. -/
def append_type_attributes (cg : CodeGenerator) (msg_name : String) :
    Except GenErr CodeGenerator :=
  if msg_name.take 1 = "." then
    .ok (cg.config.type_attributes.foldl
      (fun acc p =>
        if match_ident p.1 msg_name none then pushStr (pushIndent acc) (p.2 ++ "\n") else acc)
      cg)
  else .error .assertFailed

/-- `CodeGenerator::append_field_attributes`. -/
def append_field_attributes (cg : CodeGenerator) (msg_name field_name : String) :
    Except GenErr CodeGenerator :=
  if msg_name.take 1 = "." then
    .ok (cg.config.field_attributes.foldl
      (fun acc p =>
        if match_ident p.1 msg_name (some field_name) then
          pushStr (pushIndent acc) (p.2 ++ "\n")
        else acc)
      cg)
  else .error .assertFailed

/-! ## Field and type lowering -/

/-- `CodeGenerator::resolve_type`. -/
def resolve_type (cg : CodeGenerator) (field : FieldDescriptorProto) :
    Except GenErr String :=
  match field.ftype with
  | .float => .ok "f32"
  | .double => .ok "f64"
  | .uint32 | .fixed32 => .ok "u32"
  | .uint64 | .fixed64 => .ok "u64"
  | .int32 | .sfixed32 | .sint32 | .enumT => .ok "i32"
  | .int64 | .sfixed64 | .sint64 => .ok "i64"
  | .boolT => .ok "bool"
  | .stringT => .ok "String"
  | .bytes => .ok "Vec<u8>"
  | .group | .message =>
    match known_type cg.config (typeNameAccessor field) with
    | some ty => .ok ty
    | none => resolve_ident cg.package (typeNameAccessor field)

/-- Escaping performed by the Rust `{:?}` (Debug) formatting of a string:
backslashes and double quotes are escaped (the only characters a resolved
identifier path can contain that Debug escapes). -/
def rustDebugQuote (s : String) : String :=
  "\"" ++ String.mk (s.data.flatMap
    (fun c => if c = '\\' then ['\\', '\\'] else if c = '"' then ['\\', '"'] else [c])) ++ "\""

/-- `CodeGenerator::field_type_tag`. -/
def field_type_tag (cg : CodeGenerator) (field : FieldDescriptorProto) :
    Except GenErr String :=
  match field.ftype with
  | .float => .ok "float"
  | .double => .ok "double"
  | .int32 => .ok "int32"
  | .int64 => .ok "int64"
  | .uint32 => .ok "uint32"
  | .uint64 => .ok "uint64"
  | .sint32 => .ok "sint32"
  | .sint64 => .ok "sint64"
  | .fixed32 => .ok "fixed32"
  | .fixed64 => .ok "fixed64"
  | .sfixed32 => .ok "sfixed32"
  | .sfixed64 => .ok "sfixed64"
  | .boolT => .ok "bool"
  | .stringT => .ok "string"
  | .bytes => .ok "bytes"
  | .group => .ok "group"
  | .message => .ok "message"
  | .enumT =>
    (resolve_ident cg.package (typeNameAccessor field)).map
      (fun ty => "enumeration=" ++ rustDebugQuote ty)

/-- `CodeGenerator::map_value_type_tag`. -/
def map_value_type_tag (cg : CodeGenerator) (field : FieldDescriptorProto) :
    Except GenErr String :=
  match field.ftype with
  | .enumT =>
    (resolve_ident cg.package (typeNameAccessor field)).map
      (fun ty => "enumeration(" ++ ty ++ ")")
  | _ => field_type_tag cg field

/-- `CodeGenerator::optional`: a field gets an `Option` wrapper iff its label
is `Optional` and it is message-typed, or (for other types) the dialect is
proto2. -/
def CodeGenerator.optional (cg : CodeGenerator) (field : FieldDescriptorProto) : Bool :=
  if labelAccessor field ≠ 1 then false
  else
    match field.ftype with
    | .message => true
    | _ => cg.dialect == Dialect.proto2

/-- The free function `can_pack`. -/
def can_pack (field : FieldDescriptorProto) : Bool :=
  match field.ftype with
  | .float | .double | .int32 | .int64
  | .uint32 | .uint64 | .sint32 | .sint64
  | .fixed32 | .fixed64 | .sfixed32 | .sfixed64
  | .boolT | .enumT => true
  | _ => false

/-- The free function `strip_enum_prefix` (stated over camel-cased names):
strip `pfx` from the front of `name` only when the remainder starts with an
uppercase character; otherwise return `name` unchanged.  Uppercase is the
ASCII test, modelling `char::is_uppercase` on identifier characters. -/
def stripEnumPrefix (pfx : String) (name : String) : String :=
  let stripped :=
    if pfx.data.isPrefixOf name.data then String.mk (name.data.drop pfx.data.length)
    else name
  match stripped.data with
  | c :: _ => if c.isUpper then stripped else name
  | [] => name

/-- The boxing decision of `append_field` (source lines 265-267): heap
indirection iff the field is not repeated, is message-typed, and the
recursion oracle reports its target type as nested inside the enclosing
message. -/
def fieldBoxed (cg : CodeGenerator) (msg_name : String) (field : FieldDescriptorProto) : Bool :=
  !(field.label == some 3) && field.ftype == FType.message
    && cg.is_nested (typeNameAccessor field) msg_name

/-- `CodeGenerator::append_field`.  Group-typed fields are silently skipped.
`repeated` is the raw label comparison; the wire-tag attribute is assembled
in the source's push order and recorded wholesale in the trace entry
together with the container-shape decisions. -/
def append_field (cg : CodeGenerator) (msg_name : String) (field : FieldDescriptorProto) :
    Except GenErr CodeGenerator :=
  if field.ftype = .group then .ok cg
  else
    let repeated := field.label == some 3
    let opt := CodeGenerator.optional cg field
    match resolve_type cg field with
    | .error e => .error e
    | .ok ty =>
      let boxed := fieldBoxed cg msg_name field
      match append_doc cg with
      | .error e => .error e
      | .ok cg2 =>
        let cg2 := pushIndent cg2
        match field_type_tag cg2 field with
        | .error e => .error e
        | .ok type_tag =>
          let labelPart :=
            match labelAccessor field with
            | 2 => ", required"
            | 3 => ", repeated" ++
                (if can_pack field &&
                    !(match field.options with
                      | some o => packedAccessor o
                      | none => cg2.dialect == Dialect.proto3) then
                  ", packed=\"false\""
                else "")
            | _ => if opt then ", optional" else ""
          match (match field.default_value with
            | none => Except.ok ""
            | some dflt =>
              if field.ftype = .bytes then
                Except.ok ("\", default=\"" ++ "b\\\"" ++
                  String.mk ((escape_bytes_default (dflt.data.map Char.toNat)).map Char.ofNat) ++
                  "\\\"")
              else if field.ftype = .enumT then
                let enum_value := to_upper_camel dflt
                if cg2.config.stripEnumPrefixFlag then
                  match field.type_name with
                  | none => Except.error GenErr.unwrapNone
                  | some tn =>
                    match (splitOnDot tn).getLast? with
                    | none => Except.error GenErr.unwrapNone
                    | some enum_type =>
                      Except.ok ("\", default=\"" ++
                        to_upper_camel (stripEnumPrefix enum_type enum_value))
                else Except.ok ("\", default=\"" ++ to_upper_camel dflt)
              else Except.ok ("\", default=\"" ++ dflt) : Except GenErr String) with
          | .error e => .error e
          | .ok defaultPart =>
            let attr := "#[prost(" ++ type_tag ++ labelPart ++
                (if boxed then ", boxed" else "") ++
                ", tag=\"" ++ toString field.number ++ defaultPart ++ "\")]\n"
            let cg2 := pushStr cg2 attr
            match append_field_attributes cg2 msg_name field.name with
            | .error e => .error e
            | .ok cg2 =>
              let cg2 := pushIndent cg2
              let cg2 := pushStr cg2 ("pub " ++ to_snake field.name ++ ": " ++
                  (if repeated then "::std::vec::Vec<"
                   else if opt then "::std::option::Option<" else "") ++
                  (if boxed then "::std::boxed::Box<" else "") ++ ty ++
                  (if boxed then ">" else "") ++
                  (if repeated || opt then ">" else "") ++ ",\n")
              .ok (appendTrace cg2 (.fieldDecl field.name (.plain opt repeated boxed attr)))

/-- `CodeGenerator::append_map_field`: a field whose type matched a collected
map-entry is emitted as an associative container built from the entry's key
and value descriptors. -/
def append_map_field (cg : CodeGenerator) (msg_name : String)
    (field key value : FieldDescriptorProto) : Except GenErr CodeGenerator :=
  match resolve_type cg key with
  | .error e => .error e
  | .ok key_ty =>
    match resolve_type cg value with
    | .error e => .error e
    | .ok value_ty =>
      match append_doc cg with
      | .error e => .error e
      | .ok cg2 =>
        let cg2 := pushIndent cg2
        let btree := cg2.config.btree_map.any
          (fun matcher => match_ident matcher msg_name (some field.name))
        let annTy := if btree then "btree_map" else "map"
        let rustTy := if btree then "BTreeMap" else "HashMap"
        match field_type_tag cg2 key with
        | .error e => .error e
        | .ok key_tag =>
          match map_value_type_tag cg2 value with
          | .error e => .error e
          | .ok value_tag =>
            let cg2 := pushStr cg2 ("#[prost(" ++ annTy ++ "=\"" ++ key_tag ++ ", " ++
                value_tag ++ "\", tag=\"" ++ toString field.number ++ "\")]\n")
            match append_field_attributes cg2 msg_name field.name with
            | .error e => .error e
            | .ok cg2 =>
              let cg2 := pushIndent cg2
              let cg2 := pushStr cg2 ("pub " ++ to_snake field.name ++
                  ": ::std::collections::" ++ rustTy ++ "<" ++ key_ty ++ ", " ++ value_ty ++
                  ">,\n")
              .ok (appendTrace cg2 (.fieldDecl field.name (.mapField key value)))

/-- `CodeGenerator::append_oneof_field`: the union field's wire-tag metadata
is the union type's relative name plus the member tags joined with a comma,
in the order the member fields were collected (field declaration order). -/
def append_oneof_field (cg : CodeGenerator) (message_name fq_message_name : String)
    (oneof : OneofDescriptorProto) (fields : List (FieldDescriptorProto × Nat)) :
    Except GenErr CodeGenerator :=
  let name := to_snake message_name ++ "::" ++ to_upper_camel oneof.name
  match append_doc cg with
  | .error e => .error e
  | .ok cg2 =>
    let cg2 := pushIndent cg2
    let cg2 := pushStr cg2 ("#[prost(oneof=\"" ++ name ++ "\", tags=\"" ++
        String.intercalate ", " (fields.map (fun p => toString p.1.number)) ++ "\")]\n")
    match append_field_attributes cg2 fq_message_name oneof.name with
    | .error e => .error e
    | .ok cg2 =>
      let cg2 := pushIndent cg2
      let cg2 := pushStr cg2 ("pub " ++ to_snake oneof.name ++ ": ::std::option::Option<" ++
          name ++ ">,\n")
      .ok (appendTrace cg2 (.oneofFieldDecl name (fields.map (fun p => p.1.number))))

/-- The member-variant loop of `CodeGenerator::append_oneof` (source lines
419-446): group-typed members are skipped before any path manipulation. -/
def append_oneof_variants (cg : CodeGenerator) (oneof_name msg_name : String) :
    List (FieldDescriptorProto × Nat) → Except GenErr CodeGenerator
  | [] => .ok cg
  | (field, idx) :: rest =>
    if field.ftype = .group then append_oneof_variants cg oneof_name msg_name rest
    else
      let cg2 := pushPath cg (idx : Int)
      match append_doc cg2 with
      | .error e => .error e
      | .ok cg2 =>
        let cg2 := popPath cg2
        let cg2 := pushIndent cg2
        match field_type_tag cg2 field with
        | .error e => .error e
        | .ok ty_tag =>
          let cg2 := pushStr cg2 ("#[prost(" ++ ty_tag ++ ", tag=\"" ++
              toString field.number ++ "\")]\n")
          match append_field_attributes cg2 oneof_name field.name with
          | .error e => .error e
          | .ok cg2 =>
            let cg2 := pushIndent cg2
            match resolve_type cg2 field with
            | .error e => .error e
            | .ok ty =>
              let boxed := field.ftype == FType.message
                && cg2.is_nested (typeNameAccessor field) msg_name
              let cg2 := pushStr cg2
                (if boxed then to_upper_camel field.name ++ "(Box<" ++ ty ++ ">),\n"
                 else to_upper_camel field.name ++ "(" ++ ty ++ "),\n")
              append_oneof_variants cg2 oneof_name msg_name rest

/-- `CodeGenerator::append_oneof`: the standalone union type declaration
emitted in the nested module. -/
def append_oneof (cg : CodeGenerator) (msg_name : String) (oneof : OneofDescriptorProto)
    (idx : Int) (fields : List (FieldDescriptorProto × Nat)) : Except GenErr CodeGenerator :=
  let cg2 := pushPath cg 8
  let cg2 := pushPath cg2 idx
  match append_doc cg2 with
  | .error e => .error e
  | .ok cg2 =>
    let cg2 := popPath cg2
    let cg2 := popPath cg2
    let cg2 := pushIndent cg2
    let cg2 := pushStr cg2 "#[derive(Clone, Oneof, PartialEq)]\n"
    let oneof_name := msg_name ++ "." ++ oneof.name
    match append_type_attributes cg2 oneof_name with
    | .error e => .error e
    | .ok cg2 =>
      let cg2 := pushIndent cg2
      let cg2 := pushStr cg2 ("pub enum " ++ to_upper_camel oneof.name ++ " \x7b\n")
      let cg2 := appendTrace cg2 (Emitted.oneofDecl (to_upper_camel oneof.name))
      let cg2 := pushPath cg2 2
      let cg2 := depthInc cg2
      match append_oneof_variants cg2 oneof_name msg_name fields with
      | .error e => .error e
      | .ok cg2 =>
        let cg2 := depthDec cg2
        let cg2 := popPath cg2
        let cg2 := pushIndent cg2
        .ok (pushStr cg2 "\x7d\n")

/-- `CodeGenerator::append_enum_value`. -/
def append_enum_value (cg : CodeGenerator) (fq_enum_name : String)
    (value : EnumValueDescriptorProto) (prefix_to_strip : Option String) :
    Except GenErr CodeGenerator :=
  match append_doc cg with
  | .error e => .error e
  | .ok cg2 =>
    match append_field_attributes cg2 fq_enum_name value.name with
    | .error e => .error e
    | .ok cg2 =>
      let cg2 := pushIndent cg2
      let name := to_upper_camel value.name
      let name_unprefixed :=
        match prefix_to_strip with
        | some pfx => stripEnumPrefix pfx name
        | none => name
      let cg2 := pushStr cg2 (name_unprefixed ++ " = " ++ toString value.number ++ ",\n")
      .ok (appendTrace cg2 (.enumValue name_unprefixed value.number))

/-- The value loop of `CodeGenerator::append_enum` (source lines 489-504):
`numbers` is the `HashSet` of already-seen numeric values (a duplicate is
skipped before any path manipulation), and `idx` the `enumerate` counter,
which advances over skipped values too. -/
def append_enum_values (cg : CodeGenerator) (fq_enum_name enum_name : String)
    (numbers : List Int) (idx : Nat) :
    List EnumValueDescriptorProto → Except GenErr CodeGenerator
  | [] => .ok cg
  | value :: rest =>
    if numbers.contains value.number then
      append_enum_values cg fq_enum_name enum_name numbers (idx + 1) rest
    else
      let numbers2 := value.number :: numbers
      let cg2 := pushPath cg (idx : Int)
      let stripped_prefix :=
        if cg2.config.stripEnumPrefixFlag then some (to_upper_camel enum_name) else none
      match append_enum_value cg2 fq_enum_name value stripped_prefix with
      | .error e => .error e
      | .ok cg3 =>
        let cg3 := popPath cg3
        append_enum_values cg3 fq_enum_name enum_name numbers2 (idx + 1) rest

/-- `CodeGenerator::append_enum`: skips well-known/overridden enums entirely,
otherwise emits the declaration and one value per first-seen numeric value. -/
def append_enum (cg : CodeGenerator) (desc : EnumDescriptorProto) :
    Except GenErr CodeGenerator :=
  let enum_name := desc.name
  let fq_enum_name := "." ++ cg.package ++ "." ++ enum_name
  if (known_type cg.config fq_enum_name).isSome then .ok cg
  else
    match append_doc cg with
    | .error e => .error e
    | .ok cg2 =>
      let cg2 := pushIndent cg2
      let cg2 := pushStr cg2
        "#[derive(Clone, Copy, Debug, PartialEq, Eq, Hash, PartialOrd, Ord, Enumeration)]\n"
      match append_type_attributes cg2 fq_enum_name with
      | .error e => .error e
      | .ok cg2 =>
        let cg2 := pushIndent cg2
        let cg2 := pushStr cg2 ("pub enum " ++ to_upper_camel desc.name ++ " \x7b\n")
        let cg2 := appendTrace cg2 (Emitted.enumDecl fq_enum_name)
        let cg2 := depthInc cg2
        let cg2 := pushPath cg2 2
        match append_enum_values cg2 fq_enum_name enum_name [] 0 desc.value with
        | .error e => .error e
        | .ok cg2 =>
          let cg2 := popPath cg2
          let cg2 := depthDec cg2
          let cg2 := pushIndent cg2
          .ok (pushStr cg2 "\x7d\n")

/-! ## Message lowering: partitions and traversal loops -/

/-- The nested-type partition of `append_message` (source lines 136-151):
map-entry-flagged nested types are removed and indexed by fully-qualified
name (reduced to their key/value field pair, with the field names asserted),
while genuine nested types keep their original `enumerate` index.  Duplicate
map-entry names follow `HashMap` insert semantics (the last insertion wins,
see `mapTypesGet`). -/
def partitionNestedTypes (fq_message_name : String) (idx : Nat) :
    List DescriptorProto →
    Except GenErr
      (List (DescriptorProto × Nat) × List (String × (FieldDescriptorProto × FieldDescriptorProto)))
  | [] => .ok ([], [])
  | d :: rest =>
    if isMapEntry d then
      match d.field with
      | key :: value :: _ =>
        if key.name = "key" then
          if value.name = "value" then
            match partitionNestedTypes fq_message_name (idx + 1) rest with
            | .error e => .error e
            | .ok (nt, mt) =>
              .ok (nt, (fq_message_name ++ "." ++ d.name, (key, value)) :: mt)
          else .error .assertFailed
        else .error .assertFailed
      | _ => .error .indexOutOfBounds
    else
      match partitionNestedTypes fq_message_name (idx + 1) rest with
      | .error e => .error e
      | .ok (nt, mt) => .ok ((d, idx) :: nt, mt)

/-- `HashMap::get` on the collected map-entry index: the value of the last
insertion for the key. -/
def mapTypesGet (mt : List (String × (FieldDescriptorProto × FieldDescriptorProto)))
    (key : String) : Option (FieldDescriptorProto × FieldDescriptorProto) :=
  ((mt.reverse).find? (fun p => p.1 == key)).map Prod.snd

/-- The field partition of `append_message` (source lines 153-164): fields
with a oneof index go to the `MultiMap` (keyed by that index), the rest keep
their order; both retain the original `enumerate` index. -/
def partitionFields (idx : Nat) :
    List FieldDescriptorProto →
    List (FieldDescriptorProto × Nat) × List (Int × (FieldDescriptorProto × Nat))
  | [] => ([], [])
  | f :: rest =>
    let parts := partitionFields (idx + 1) rest
    match f.oneof_index with
    | some oi => (parts.1, (oi, (f, idx)) :: parts.2)
    | none => ((f, idx) :: parts.1, parts.2)

/-- `MultiMap::len`: the number of distinct keys. -/
def multimapKeyCount (l : List (Int × (FieldDescriptorProto × Nat))) : Nat :=
  ((l.map Prod.fst).dedup).length

/-- `MultiMap::get_vec` (and `remove`, which yields the same vector): all
values inserted under the key, in insertion order; `none` when the key is
absent. -/
def multimapGetVec (l : List (Int × (FieldDescriptorProto × Nat))) (k : Int) :
    Option (List (FieldDescriptorProto × Nat)) :=
  let v := (l.filter (fun p => p.1 == k)).map Prod.snd
  if v.isEmpty then none else some v

/-- The non-oneof field loop of `append_message` (source lines 178-187): each
field is dispatched to the map-field emitter when its type name is a
collected map-entry, and to the plain field emitter otherwise. -/
def append_message_fields (cg : CodeGenerator) (fq_message_name : String)
    (map_types : List (String × (FieldDescriptorProto × FieldDescriptorProto))) :
    List (FieldDescriptorProto × Nat) → Except GenErr CodeGenerator
  | [] => .ok cg
  | (field, idx) :: rest =>
    let cg2 := pushPath cg (idx : Int)
    match (match field.type_name.bind (fun tn => mapTypesGet map_types tn) with
           | some kv => append_map_field cg2 fq_message_name field kv.1 kv.2
           | none => append_field cg2 fq_message_name field) with
    | .error e => .error e
    | .ok cg3 =>
      let cg3 := popPath cg3
      append_message_fields cg3 fq_message_name map_types rest

/-- The oneof-field loop of `append_message` (source lines 190-198): one
union field per declared oneof, with the member vector looked up by the
declaration index (`unwrap` panics when a declared oneof has no members). -/
def append_message_oneof_fields (cg : CodeGenerator) (message_name fq_message_name : String)
    (oneof_fields : List (Int × (FieldDescriptorProto × Nat))) (idx : Nat) :
    List OneofDescriptorProto → Except GenErr CodeGenerator
  | [] => .ok cg
  | oneof :: rest =>
    let cg2 := pushPath cg (idx : Int)
    match (match multimapGetVec oneof_fields (idx : Int) with
           | some fs => append_oneof_field cg2 message_name fq_message_name oneof fs
           | none => .error GenErr.missingOneofGroup) with
    | .error e => .error e
    | .ok cg3 =>
      let cg3 := popPath cg3
      append_message_oneof_fields cg3 message_name fq_message_name oneof_fields (idx + 1) rest

/-- The nested-enum loop of `append_message` (source lines 215-221). -/
def append_message_enums (cg : CodeGenerator) (idx : Nat) :
    List EnumDescriptorProto → Except GenErr CodeGenerator
  | [] => .ok cg
  | e :: rest =>
    let cg2 := pushPath cg (idx : Int)
    match append_enum cg2 e with
    | .error er => .error er
    | .ok cg3 =>
      let cg3 := popPath cg3
      append_message_enums cg3 (idx + 1) rest

/-- The oneof-declaration loop of `append_message` (source lines 223-226):
`remove(&idx).unwrap()` yields the same member vector as `get_vec`. -/
def append_message_oneofs (cg : CodeGenerator) (fq_message_name : String)
    (oneof_fields : List (Int × (FieldDescriptorProto × Nat))) (idx : Nat) :
    List OneofDescriptorProto → Except GenErr CodeGenerator
  | [] => .ok cg
  | oneof :: rest =>
    match (match multimapGetVec oneof_fields (idx : Int) with
           | some fs => append_oneof cg fq_message_name oneof (idx : Int) fs
           | none => .error GenErr.missingOneofGroup) with
    | .error e => .error e
    | .ok cg2 => append_message_oneofs cg2 fq_message_name oneof_fields (idx + 1) rest

mutual

/-- `CodeGenerator::append_message`.  Known (well-known/overridden) types are
skipped before any state manipulation.  The nested-type recursion walks
`nested_type` with its `enumerate` index, skipping map-entry-flagged entries
inline; this visits exactly the first component of `partitionNestedTypes`
(whose asserts have already run up front), preserving the source's traversal
order and path indices. -/
def append_message (cg : CodeGenerator) (message : DescriptorProto) :
    Except GenErr CodeGenerator :=
  match message with
  | .mk mname mfields moneofs mnested menums mopts =>
    let fq_message_name := "." ++ cg.package ++ "." ++ mname
    if (known_type cg.config fq_message_name).isSome then .ok cg
    else
      match partitionNestedTypes fq_message_name 0 mnested with
      | .error e => .error e
      | .ok (nested_types, map_types) =>
        let parts := partitionFields 0 mfields
        let fields := parts.1
        let oneof_fields := parts.2
        if multimapKeyCount oneof_fields ≠ moneofs.length then .error .oneofCountMismatch
        else
          match append_doc cg with
          | .error e => .error e
          | .ok cg2 =>
            let cg2 := pushIndent cg2
            let cg2 := pushStr cg2 "#[derive(Clone, PartialEq, Message)]\n"
            match append_type_attributes cg2 fq_message_name with
            | .error e => .error e
            | .ok cg2 =>
              let cg2 := pushIndent cg2
              let cg2 := pushStr cg2 ("pub struct " ++ to_upper_camel mname ++ " \x7b\n")
              let cg2 := appendTrace cg2
                (Emitted.structDecl fq_message_name ((mopts.bind MessageOptions.map_entry).getD false))
              let cg2 := depthInc cg2
              let cg2 := pushPath cg2 2
              match append_message_fields cg2 fq_message_name map_types fields with
              | .error e => .error e
              | .ok cg2 =>
                let cg2 := popPath cg2
                let cg2 := pushPath cg2 8
                match append_message_oneof_fields cg2 mname fq_message_name oneof_fields 0 moneofs with
                | .error e => .error e
                | .ok cg2 =>
                  let cg2 := popPath cg2
                  let cg2 := depthDec cg2
                  let cg2 := pushIndent cg2
                  let cg2 := pushStr cg2 "\x7d\n"
                  if !menums.isEmpty || !nested_types.isEmpty || !oneof_fields.isEmpty then
                    let cg2 := push_mod cg2 mname
                    let cg2 := pushPath cg2 3
                    match append_message_nested cg2 0 mnested with
                    | .error e => .error e
                    | .ok cg2 =>
                      let cg2 := popPath cg2
                      let cg2 := pushPath cg2 4
                      match append_message_enums cg2 0 menums with
                      | .error e => .error e
                      | .ok cg2 =>
                        let cg2 := popPath cg2
                        match append_message_oneofs cg2 fq_message_name oneof_fields 0 moneofs with
                        | .error e => .error e
                        | .ok cg2 => pop_mod cg2
                  else .ok cg2

/-- The nested-message loop of `append_message` (source lines 207-213),
fused with the map-entry filtering of the partition: map-entry-flagged
nested types are skipped (they are never emitted), the rest are visited with
their original index pushed on the path. -/
def append_message_nested (cg : CodeGenerator) (idx : Nat) :
    List DescriptorProto → Except GenErr CodeGenerator
  | [] => .ok cg
  | d :: rest =>
    if isMapEntry d then append_message_nested cg (idx + 1) rest
    else
      let cg2 := pushPath cg (idx : Int)
      match append_message cg2 d with
      | .error e => .error e
      | .ok cg3 =>
        let cg3 := popPath cg3
        append_message_nested cg3 (idx + 1) rest

end

/-! ## File-level generation -/

/-- The location-index preprocessing of `generate` (source lines 65-70):
keep only non-empty, even-length structural paths, then sort by path.  The
source uses the stable `sort_by_key`; a stable sort's output is unique, so
insertion sort computes the same list. -/
def locationLe (a b : Location) : Prop := pathLe a.path b.path = true

instance : DecidableRel locationLe := fun a b => by
  unfold locationLe
  infer_instance

def processSourceInfo (locs : List Location) : List Location :=
  (locs.filter (fun loc => loc.path.length != 0 && loc.path.length % 2 == 0)).insertionSort
    locationLe

/-- The syntax-dialect parse of `generate` (source lines 72-76): absent or
"proto2" means the legacy dialect, "proto3" the default-present dialect,
anything else is fatal. -/
def parseDialect : Option String → Except GenErr Dialect
  | none => .ok .proto2
  | some s =>
    if s = "proto2" then .ok .proto2
    else if s = "proto3" then .ok .proto3
    else .error .unknownDialect

/-- The top-level message loop of `generate` (source lines 91-97). -/
def generate_messages (cg : CodeGenerator) (idx : Nat) :
    List DescriptorProto → Except GenErr CodeGenerator
  | [] => .ok cg
  | m :: rest =>
    let cg2 := pushPath cg (idx : Int)
    match append_message cg2 m with
    | .error e => .error e
    | .ok cg3 =>
      let cg3 := popPath cg3
      generate_messages cg3 (idx + 1) rest

/-- The top-level enum loop of `generate` (source lines 99-105). -/
def generate_enums (cg : CodeGenerator) (idx : Nat) :
    List EnumDescriptorProto → Except GenErr CodeGenerator
  | [] => .ok cg
  | e :: rest =>
    let cg2 := pushPath cg (idx : Int)
    match append_enum cg2 e with
    | .error er => .error er
    | .ok cg3 =>
      let cg3 := popPath cg3
      generate_enums cg3 (idx + 1) rest

/-- `CodeGenerator::generate`, without the service branch (the service
generator hook and its finalize call are external collaborators, spec
section 1, and are not modelled).  Missing source code info and a missing
package are the source's `expect`/`unwrap` panics. -/
def generate (config : Config) (is_nested : String → String → Bool)
    (file : FileDescriptorProto) (buf : String) : Except GenErr String := do
  let rawInfo ← (match file.source_code_info with
    | some si => Except.ok si
    | none => Except.error GenErr.noSourceCodeInfo : Except GenErr (List Location))
  let source_info := processSourceInfo rawInfo
  let dialect ← parseDialect file.dialectStr
  let package ← (match file.package with
    | some p => Except.ok p
    | none => Except.error GenErr.packageUnwrap : Except GenErr String)
  let cg : CodeGenerator :=
    { config := config, package := package, source_info := source_info,
      dialect := dialect, is_nested := is_nested, depth := 0, path := [],
      buf := buf, trace := [] }
  let cg := pushPath cg 4
  let cg ← generate_messages cg 0 file.message_type
  let cg := popPath cg
  let cg := pushPath cg 5
  let cg ← generate_enums cg 0 file.enum_type
  let cg := popPath cg
  .ok cg.buf


/-! ## Specification-side definitions used for comparison in theorems -/

/-- Specification-side statement of the enum alias rule: keep a value iff its
number has not been seen before (first occurrence in declaration order wins),
threading the set of seen numbers. -/
def firstWinsValues (seen : List Int) : List EnumValueDescriptorProto → List EnumValueDescriptorProto
  | [] => []
  | v :: rest =>
    if seen.contains v.number then firstWinsValues seen rest
    else v :: firstWinsValues (v.number :: seen) rest

/-- The name `append_enum_value` emits for a value, given the optional
prefix to strip. -/
def renderValueNameOpt (prefix_to_strip : Option String)
    (v : EnumValueDescriptorProto) : String :=
  match prefix_to_strip with
  | some pfx => stripEnumPrefix pfx (to_upper_camel v.name)
  | none => to_upper_camel v.name

/-- The rendered name of one emitted enum value, as computed by the value
loop of `append_enum` together with `append_enum_value`. -/
def renderEnumValueName (config : Config) (enum_name : String)
    (v : EnumValueDescriptorProto) : String :=
  renderValueNameOpt
    (if config.stripEnumPrefixFlag then some (to_upper_camel enum_name) else none) v

/-- `SameCtx cg st` says the traversal context (everything except the output
buffer and the trace) is unchanged between two states: configuration,
package scope, comment index, dialect, oracle, indentation depth and
structural path. -/
def SameCtx (cg st : CodeGenerator) : Prop :=
  st.config = cg.config ∧ st.package = cg.package ∧ st.source_info = cg.source_info ∧
  st.dialect = cg.dialect ∧ st.is_nested = cg.is_nested ∧ st.depth = cg.depth ∧
  st.path = cg.path



/-! ## Schema-validity predicate and concrete inputs used in the theorems -/

mutual

/-- Names that take part in module pushes contain no dot (upstream schema
validation guarantees this: identifiers are dot-free; `pop_mod` truncates at
the last dot, so a dotted name would corrupt the package scope). -/
def dotFreeMsg : DescriptorProto → Bool
  | .mk n _ _ nested _ _ => !(n.data.contains '.') && dotFreeList nested

def dotFreeList : List DescriptorProto → Bool
  | [] => true
  | d :: rest => dotFreeMsg d && dotFreeList rest

end

/-- An empty configuration: no attribute injection, no btree selection, no
prefix stripping, well-known substitution on, no overrides. -/
def plainConfig : Config := ⟨[], [], [], false, true, []⟩

/-- Concrete input for claim C1: the end-to-end example message
`Outer { message Inner{} Inner inner = 1; repeated int32 nums = 2 [packed]; }`
in the proto3 (default-present) dialect, package `test`. -/
def c1Inner : DescriptorProto := ⟨"Inner", [], [], [], [], none⟩

def c1FieldInner : FieldDescriptorProto :=
  ⟨"inner", 1, some 1, .message, some ".test.Outer.Inner", none, none, none⟩

def c1FieldNums : FieldDescriptorProto :=
  ⟨"nums", 2, some 3, .int32, none, none, none, some ⟨some true⟩⟩

def c1Outer : DescriptorProto :=
  ⟨"Outer", [c1FieldInner, c1FieldNums], [], [c1Inner], [], none⟩

def c1SourceInfo : List Location :=
  [⟨[4, 0], none⟩, ⟨[4, 0, 2, 0], none⟩, ⟨[4, 0, 2, 1], none⟩, ⟨[4, 0, 3, 0], none⟩]

/-- The generator state at the point `generate` visits the first top-level
message: path `[4, 0]`, a comment index holding exactly the visited paths,
and the true recursion oracle of this schema (no type embeds any other, so
the oracle is constantly false). -/
def c1Cg : CodeGenerator :=
  ⟨plainConfig, "test", c1SourceInfo, .proto3, fun _ _ => false, 0, [4, 0], "", []⟩

def c1InnerAttr : String := "#[prost(message, optional, tag=\"1\")]\n"

def c1NumsAttr : String := "#[prost(int32, repeated, tag=\"2\")]\n"

/-- The declarations the generator emits for the C1 example. -/
def c1Trace : List Emitted :=
  [.structDecl ".test.Outer" false,
   .fieldDecl "inner" (.plain true false false c1InnerAttr),
   .fieldDecl "nums" (.plain false true false c1NumsAttr),
   .structDecl ".test.Outer.Inner" false]

/-- Concrete input for the witness of claim C2: a singular message-typed
field whose target the oracle reports as nested (a recursive message). -/
def c2Field : FieldDescriptorProto :=
  ⟨"child", 4, some 1, .message, some ".w.M.Child", none, none, none⟩

def c2Cg : CodeGenerator :=
  ⟨plainConfig, "w", [⟨[4, 0, 2, 0], none⟩], .proto3, fun _ _ => true, 1, [4, 0, 2, 0], "", []⟩

/-- Concrete input for claim C4: a oneof whose two member fields are
declared with descending tags 5, 3. -/
def c4FieldA : FieldDescriptorProto := ⟨"alpha", 5, some 1, .int32, none, none, some 0, none⟩

def c4FieldB : FieldDescriptorProto := ⟨"beta", 3, some 1, .int32, none, none, some 0, none⟩

def c4Oneof : OneofDescriptorProto := ⟨"choice"⟩

def c4Cg : CodeGenerator :=
  ⟨plainConfig, "test", [⟨[4, 0, 8, 0], none⟩], .proto3, fun _ _ => false, 1, [4, 0, 8, 0], "", []⟩

/-- Concrete input for claim C6: the enum `{A = 1, B = 1, C = 2}`. -/
def c6Desc : EnumDescriptorProto := ⟨"E", [⟨"A", 1⟩, ⟨"B", 1⟩, ⟨"C", 2⟩]⟩

def c6Cg : CodeGenerator :=
  ⟨plainConfig, "test", [⟨[5, 0], none⟩, ⟨[5, 0, 2, 0], none⟩, ⟨[5, 0, 2, 2], none⟩],
   .proto3, fun _ _ => false, 0, [5, 0], "", []⟩

/-- Concrete input for the witness of claim C7: a message with one synthetic
map-entry nested type and one field of that entry type. -/
def c7KeyField : FieldDescriptorProto := ⟨"key", 1, some 1, .stringT, none, none, none, none⟩

def c7ValueField : FieldDescriptorProto := ⟨"value", 2, some 1, .int32, none, none, none, none⟩

def c7Entry : DescriptorProto :=
  ⟨"ItemsEntry", [c7KeyField, c7ValueField], [], [], [], some ⟨some true⟩⟩

def c7MapField : FieldDescriptorProto :=
  ⟨"items", 1, some 3, .message, some ".test.M.ItemsEntry", none, none, none⟩

def c7Msg : DescriptorProto := ⟨"M", [c7MapField], [], [c7Entry], [], none⟩

def c7Cg : CodeGenerator :=
  ⟨plainConfig, "test", [⟨[4, 0], none⟩, ⟨[4, 0, 2, 0], none⟩], .proto3,
   fun _ _ => false, 0, [4, 0], "", []⟩

/-- Concrete input for the witness of claim C8: a one-entry comment index
and a path absent from it. -/
def c8Locs : List Location := [⟨[4, 0], none⟩]

def c8Cg : CodeGenerator :=
  ⟨plainConfig, "", processSourceInfo c8Locs, .proto2, fun _ _ => false, 0, [9], "", []⟩

/-- Concrete input for the witness of claim C10: a message with a nested
message and a nested enum, exercising the module push/pop and all path
pushes. -/
def c10Inner : DescriptorProto := ⟨"N", [], [], [], [], none⟩

def c10Enum : EnumDescriptorProto := ⟨"K", [⟨"X", 0⟩]⟩

def c10Msg : DescriptorProto := ⟨"Omsg", [], [], [c10Inner], [c10Enum], none⟩

def c10SourceInfo : List Location :=
  [⟨[4, 1], none⟩, ⟨[4, 1, 2, 0], none⟩, ⟨[4, 1, 3, 0], none⟩, ⟨[4, 1, 4, 0], none⟩,
   ⟨[4, 1, 4, 0, 2, 0], none⟩]

def c10Cg : CodeGenerator :=
  ⟨plainConfig, "test", c10SourceInfo, .proto3, fun _ _ => false, 0, [4, 1], "", []⟩

/-- An emitted entry that is not a standalone declaration of a
map-entry-flagged type.  Claim C7 asserts every entry the generator ever
emits (outside of a direct call on a map-entry descriptor) satisfies this. -/
def StructSafe (e : Emitted) : Prop :=
  ∀ fq, e ≠ Emitted.structDecl fq true

/-- The part of the traversal context that is restored unconditionally by
`append_message`: everything of `SameCtx` except the package scope (which
additionally needs the message names to be dot-free, see `MsgProp`). -/
def CtxRestored (cg st : CodeGenerator) : Prop :=
  st.config = cg.config ∧ st.source_info = cg.source_info ∧ st.dialect = cg.dialect ∧
  st.is_nested = cg.is_nested ∧ st.depth = cg.depth ∧ st.path = cg.path

/-- The invariant established for every successful `append_message` call
(claims C7 and C10): the context is restored (the package scope whenever the
involved names are dot-free), the trace grows by entries that never include
a standalone declaration of a map-entry-flagged type (as long as the call
itself is not on a map-entry descriptor), and every non-oneof field whose
type name is a collected map-entry yields an associative-container entry. -/
def MsgProp (cg : CodeGenerator) (msg : DescriptorProto) (st : CodeGenerator) : Prop :=
  CtxRestored cg st ∧ (dotFreeMsg msg = true → st.package = cg.package) ∧
  ∃ ts, st.trace = cg.trace ++ ts ∧
    (isMapEntry msg = false → ∀ e ∈ ts, StructSafe e) ∧
    (known_type cg.config ("." ++ cg.package ++ "." ++ msg.name) = none →
      ∀ f ∈ msg.field, f.oneof_index = none →
      ∀ n kv nt mt, f.type_name = some n →
        partitionNestedTypes ("." ++ cg.package ++ "." ++ msg.name) 0 msg.nested_type =
          .ok (nt, mt) →
        mapTypesGet mt n = some kv →
        Emitted.fieldDecl f.name (FieldKind.mapField kv.1 kv.2) ∈ ts)

/-- The corresponding invariant for the nested-message loop. -/
def ListProp (cg : CodeGenerator) (l : List DescriptorProto) (st : CodeGenerator) : Prop :=
  CtxRestored cg st ∧ (dotFreeList l = true → st.package = cg.package) ∧
  ∃ ts, st.trace = cg.trace ++ ts ∧ ∀ e ∈ ts, StructSafe e

/-! # Theorems

## Claims C5 and C9: the default byte-string escape decoder and encoder -/

theorem hexVal_hexDigitLower (n : Nat) (h : n < 16) : hexVal (hexDigitLower n) = some n := by
  unfold hexVal hexDigitLower
  split_ifs <;> first | (exfalso; omega) | (simp only [Option.some.injEq]; omega)

theorem rustHexParse_hexDigits (b : Nat) (h : b < 256) :
    rustU8FromStrRadix16 (hexDigitLower (b / 16)) (hexDigitLower (b % 16)) = some b := by
  have h1 : b / 16 < 16 := by omega
  have h2 : b % 16 < 16 := Nat.mod_lt b (by omega)
  have e1 := hexVal_hexDigitLower (b / 16) h1
  have e2 := hexVal_hexDigitLower (b % 16) h2
  have hne : hexDigitLower (b / 16) ≠ 43 := by
    unfold hexDigitLower
    split <;> omega
  simp only [rustU8FromStrRadix16, if_neg hne, e1, e2]
  congr 1
  omega

/-- Decoding one ASCII-escaped byte followed by anything decodes the byte and
continues with the remainder. -/
theorem unescape_asciiEscape_append (b : Nat) (hb : b < 256) (t : List Nat) :
    unescapeBytes (asciiEscapeDefault b ++ t) = (unescapeBytes t).map (fun d => b :: d) := by
  by_cases h9 : b = 9
  · subst h9
    rw [show asciiEscapeDefault 9 = [92, 116] from rfl, List.cons_append, List.cons_append,
      List.nil_append, unescapeBytes, unescapeStep.eq_def]
    norm_num
  by_cases h13 : b = 13
  · subst h13
    rw [show asciiEscapeDefault 13 = [92, 114] from rfl, List.cons_append, List.cons_append,
      List.nil_append, unescapeBytes, unescapeStep.eq_def]
    norm_num
  by_cases h10 : b = 10
  · subst h10
    rw [show asciiEscapeDefault 10 = [92, 110] from rfl, List.cons_append, List.cons_append,
      List.nil_append, unescapeBytes, unescapeStep.eq_def]
    norm_num
  by_cases h92 : b = 92
  · subst h92
    rw [show asciiEscapeDefault 92 = [92, 92] from rfl, List.cons_append, List.cons_append,
      List.nil_append, unescapeBytes, unescapeStep.eq_def]
    norm_num
  by_cases h39 : b = 39
  · subst h39
    rw [show asciiEscapeDefault 39 = [92, 39] from rfl, List.cons_append, List.cons_append,
      List.nil_append, unescapeBytes, unescapeStep.eq_def]
    norm_num
  by_cases h34 : b = 34
  · subst h34
    rw [show asciiEscapeDefault 34 = [92, 34] from rfl, List.cons_append, List.cons_append,
      List.nil_append, unescapeBytes, unescapeStep.eq_def]
    norm_num
  by_cases hpr : 32 ≤ b ∧ b ≤ 126
  · simp only [asciiEscapeDefault, if_neg h9, if_neg h13, if_neg h10, if_neg h92, if_neg h39,
      if_neg h34, if_pos hpr, List.cons_append, List.nil_append]
    rw [unescapeBytes, unescapeStep.eq_def]
    simp [h92]
  · simp only [asciiEscapeDefault, if_neg h9, if_neg h13, if_neg h10, if_neg h92, if_neg h39,
      if_neg h34, if_neg hpr, List.cons_append, List.nil_append]
    rw [unescapeBytes, unescapeStep.eq_def]
    norm_num [rustHexParse_hexDigits b hb]

theorem hexDigitLower_printable (n : Nat) (h : n < 16) :
    32 ≤ hexDigitLower n ∧ hexDigitLower n ≤ 126 := by
  unfold hexDigitLower
  split <;> omega

/-- Every character emitted by the ASCII escape of a byte is printable
ASCII. -/
theorem asciiEscape_printable (b : Nat) (hb : b < 256) :
    ∀ c ∈ asciiEscapeDefault b, 32 ≤ c ∧ c ≤ 126 := by
  have hd1 : b / 16 < 16 := by omega
  have hd2 : b % 16 < 16 := Nat.mod_lt b (by omega)
  intro c hc
  unfold asciiEscapeDefault at hc
  split_ifs at hc with h1 h2 h3 h4 h5 h6 h7
  · simp at hc; rcases hc with rfl | rfl <;> omega
  · simp at hc; rcases hc with rfl | rfl <;> omega
  · simp at hc; rcases hc with rfl | rfl <;> omega
  · simp at hc; rcases hc with rfl | rfl <;> omega
  · simp at hc; rcases hc with rfl | rfl <;> omega
  · simp at hc; rcases hc with rfl | rfl <;> omega
  · simp at hc; subst hc; exact h7
  · simp at hc
    rcases hc with rfl | rfl | rfl | rfl
    · omega
    · omega
    · exact hexDigitLower_printable _ hd1
    · exact hexDigitLower_printable _ hd2

/-- Decoding the quoting layer (`char::escape_default` applied to printable
characters) recovers the characters. -/
theorem unescape_quote_layer (l : List Nat) (h : ∀ c ∈ l, 32 ≤ c ∧ c ≤ 126) :
    unescapeBytes (l.flatMap charEscapeDefault) = .ok l := by
  induction l with
  | nil => simp [unescapeBytes]
  | cons c rest ih =>
    have hc := h c (by simp)
    have hrest : ∀ x ∈ rest, 32 ≤ x ∧ x ≤ 126 := fun x hx => h x (by simp [hx])
    rw [List.flatMap_cons]
    by_cases h92 : c = 92
    · subst h92
      rw [show charEscapeDefault 92 = [92, 92] from rfl, List.cons_append, List.cons_append,
        List.nil_append, unescapeBytes, unescapeStep.eq_def]
      norm_num [ih hrest, except_map_ok]
    by_cases h39 : c = 39
    · subst h39
      rw [show charEscapeDefault 39 = [92, 39] from rfl, List.cons_append, List.cons_append,
        List.nil_append, unescapeBytes, unescapeStep.eq_def]
      norm_num [ih hrest, except_map_ok]
    by_cases h34 : c = 34
    · subst h34
      rw [show charEscapeDefault 34 = [92, 34] from rfl, List.cons_append, List.cons_append,
        List.nil_append, unescapeBytes, unescapeStep.eq_def]
      norm_num [ih hrest, except_map_ok]
    · have h9 : c ≠ 9 := by omega
      have h13 : c ≠ 13 := by omega
      have h10 : c ≠ 10 := by omega
      simp only [charEscapeDefault, if_neg h9, if_neg h13, if_neg h10, if_neg h92,
        if_neg h39, if_neg h34, if_pos hc, List.cons_append, List.nil_append]
      rw [unescapeBytes, unescapeStep.eq_def]
      simp [h92, ih hrest, except_map_ok]

/-- Decoding the ASCII escape layer recovers the raw bytes. -/
theorem unescape_ascii_layer (bs : List Nat) (h : ∀ b ∈ bs, b < 256) :
    unescapeBytes (bs.flatMap asciiEscapeDefault) = .ok bs := by
  induction bs with
  | nil => simp [unescapeBytes]
  | cons b rest ih =>
    have hb := h b (by simp)
    have hrest : ∀ x ∈ rest, x < 256 := fun x hx => h x (by simp [hx])
    rw [List.flatMap_cons, unescape_asciiEscape_append b hb, ih hrest]
    rfl


/-- Claim C5 (amended): the byte-string default encoder applies the ASCII
byte-string escape and then a second quoting layer for embedding in the
attribute string, so the C-style decoder inverts it after two applications:
`decode (decode (encode bytes)) = bytes` for every byte sequence. -/
theorem c5_escape_decode_decode_roundtrip (bs : List Nat) (h : ∀ b ∈ bs, b < 256) :
    (unescapeBytes (escape_bytes_default bs)).bind unescapeBytes = .ok bs := by
  have hdom : ∀ c ∈ bs.flatMap asciiEscapeDefault, 32 ≤ c ∧ c ≤ 126 := by
    intro c hc
    rw [List.mem_flatMap] at hc
    obtain ⟨a, ha, hca⟩ := hc
    exact asciiEscape_printable a (h a ha) c hca
  simp only [escape_bytes_default]
  rw [← List.flatMap_assoc, unescape_quote_layer _ hdom, except_bind_ok,
    unescape_ascii_layer bs h]

/-- Claim C5, counterexample: one decode does not invert the encoder.  For
the single byte `0x0A` the encoder emits backslash backslash `n` (the inner
escape `\n`, quoted once more), and a single decode returns the two bytes
backslash `n`, not `0x0A`. -/
theorem c5_counterexample :
    unescapeBytes (escape_bytes_default [10]) = .ok [92, 110] ∧
    unescapeBytes (escape_bytes_default [10]) ≠ .ok ([10] : List Nat) := by
  have h2 := unescape_quote_layer [92, 110] (by decide)
  rw [show ([92, 110] : List Nat).flatMap charEscapeDefault = [92, 92, 110] from rfl] at h2
  rw [show escape_bytes_default [10] = [92, 92, 110] from rfl]
  exact ⟨h2, by rw [h2]; simp⟩

/-- Claim C9: the hex-escape truncation guard `p + 2 > len` is off by one.
On the input backslash `x` `A` (one hex digit at the end of the literal) the
guard passes and the slice `&s[p+1..p+3]` reads past the end of the string:
the Rust out-of-bounds slice panic fires, not the dedicated incomplete-hex
fault.  The dedicated fault is reachable only when no character follows the
`x` (second conjunct). -/
theorem c9_hex_guard_off_by_one :
    unescapeBytes [92, 120, 65] = .error .sliceOutOfBounds ∧
    unescapeBytes [92, 120] = .error .incompleteHexValue := by
  constructor
  · rw [unescapeBytes, unescapeStep.eq_def]
    norm_num
  · rw [unescapeBytes, unescapeStep.eq_def]
    norm_num


/-- Witness for claim C5: the round trip evaluated on a concrete byte list
covering the NUL byte, a named escape, a quote, a backslash and a high
byte. -/
theorem c5_roundtrip_witness :
    (∀ b ∈ ([0, 10, 34, 92, 200] : List Nat), b < 256) ∧
    (unescapeBytes (escape_bytes_default [0, 10, 34, 92, 200])).bind unescapeBytes =
      .ok [0, 10, 34, 92, 200] :=
  ⟨by decide, c5_escape_decode_decode_roundtrip [0, 10, 34, 92, 200] (by decide)⟩

/-! ## Claim C3: name resolution of siblings -/

/-- Claim C3, counterexample: resolving `.pkg.a.b.Target` from the module
scope `pkg.a.c` yields one ascend token, one descend token `b`, and the type
name — not zero descend tokens as claimed (`super::Target` would name
`pkg.a.Target`, a different type). -/
theorem c3_counterexample :
    resolve_ident "pkg.a.c" ".pkg.a.b.Target" = .ok "super::b::Target" ∧
    ("super::b::Target" : String) ≠ "super::Target" := by
  constructor
  · rfl
  · decide

/-- Claim C3 (amended): resolving `.pkg.a.b.Target` from scope `pkg.a.c`
yields exactly one ascend token, then exactly one descend token `b`, then
the type name `Target`. -/
theorem c3_resolve_sibling_scope :
    resolve_ident "pkg.a.c" ".pkg.a.b.Target" =
      .ok (String.intercalate "::" ["super", "b", "Target"]) := rfl


/-! ## Claim C8: the comment index and its lookup -/

theorem intCompare_eq_iff (a b : Int) : intCompare a b = .eq ↔ a = b := by
  unfold intCompare
  split_ifs <;> simp <;> omega

theorem intCompare_lt_iff (a b : Int) : intCompare a b = .lt ↔ a < b := by
  unfold intCompare
  split_ifs <;> simp <;> omega

theorem intCompare_gt_iff (a b : Int) : intCompare a b = .gt ↔ b < a := by
  unfold intCompare
  split_ifs <;> simp <;> omega

theorem listIntCompare_eq_iff : ∀ a b : List Int, listIntCompare a b = .eq ↔ a = b := by
  intro a
  induction a with
  | nil => intro b; cases b <;> simp [listIntCompare]
  | cons x xs ih =>
    intro b
    cases b with
    | nil => simp [listIntCompare]
    | cons y ys =>
      simp only [listIntCompare]
      rcases hxy : intCompare x y with _ | _ | _
      · rw [intCompare_lt_iff] at hxy
        simp only [List.cons.injEq]
        constructor
        · intro h; exact absurd h (by simp)
        · rintro ⟨rfl, -⟩; omega
      · rw [intCompare_eq_iff] at hxy
        subst hxy
        simp [ih]
      · rw [intCompare_gt_iff] at hxy
        simp only [List.cons.injEq]
        constructor
        · intro h; exact absurd h (by simp)
        · rintro ⟨rfl, -⟩; omega

theorem intCompare_swap (a b : Int) : intCompare b a = (intCompare a b).swap := by
  unfold intCompare
  split_ifs <;> simp [Ordering.swap] <;> omega

theorem listIntCompare_swap : ∀ a b : List Int, listIntCompare b a = (listIntCompare a b).swap := by
  intro a
  induction a with
  | nil => intro b; cases b <;> simp [listIntCompare, Ordering.swap]
  | cons x xs ih =>
    intro b
    cases b with
    | nil => simp [listIntCompare, Ordering.swap]
    | cons y ys =>
      simp only [listIntCompare, intCompare_swap x y]
      rcases intCompare x y with _ | _ | _ <;> simp [Ordering.swap, ih]

theorem pathLe_iff (a b : List Int) : pathLe a b = true ↔ listIntCompare a b ≠ .gt := by
  unfold pathLe
  rcases listIntCompare a b with _ | _ | _ <;> simp

theorem pathLe_total (a b : List Int) : pathLe a b = true ∨ pathLe b a = true := by
  rw [pathLe_iff, pathLe_iff, listIntCompare_swap a b]
  rcases listIntCompare a b with _ | _ | _ <;> simp [Ordering.swap]

theorem listIntCompare_not_gt_trans :
    ∀ (a b c : List Int), listIntCompare a b ≠ .gt → listIntCompare b c ≠ .gt →
      listIntCompare a c ≠ .gt := by
  intro a
  induction a with
  | nil => intro b c h1 h2; cases c <;> simp [listIntCompare]
  | cons x xs ih =>
    intro b c h1 h2
    cases b with
    | nil => exact absurd (rfl : listIntCompare (x :: xs) ([] : List Int) = .gt) h1
    | cons y ys =>
      cases c with
      | nil => exact absurd (rfl : listIntCompare (y :: ys) ([] : List Int) = .gt) h2
      | cons z zs =>
        simp only [listIntCompare] at h1 h2 ⊢
        rcases hxy : intCompare x y with _ | _ | _ <;> simp only [hxy] at h1
        · rw [intCompare_lt_iff] at hxy
          rcases hyz : intCompare y z with _ | _ | _ <;> simp only [hyz] at h2
          · rw [intCompare_lt_iff] at hyz
            have hxz : intCompare x z = .lt := by rw [intCompare_lt_iff]; omega
            simp [hxz]
          · rw [intCompare_eq_iff] at hyz
            have hxz : intCompare x z = .lt := by rw [intCompare_lt_iff]; omega
            simp [hxz]
          · exact absurd rfl h2
        · rw [intCompare_eq_iff] at hxy
          subst hxy
          rcases hyz : intCompare x z with _ | _ | _ <;> simp only [hyz] at h2
          · simp [hyz]
          · simp only [hyz]
            exact ih ys zs h1 h2
          · exact absurd rfl h2
        · exact absurd rfl h1

instance : IsTotal Location locationLe :=
  ⟨fun a b => pathLe_total a.path b.path⟩

instance : IsTrans Location locationLe :=
  ⟨fun a b c h1 h2 => by
    unfold locationLe at h1 h2 ⊢
    rw [pathLe_iff] at h1 h2 ⊢
    exact listIntCompare_not_gt_trans a.path b.path c.path h1 h2⟩

/-- Any index the binary search returns holds an element whose path is
exactly the searched path (for any fuel, bounds and list). -/
theorem binarySearchGo_some (locs : List Location) (target : List Int) :
    ∀ fuel lo hi i, binarySearchGo locs target fuel lo hi = some i →
      ∃ loc, locs[i]? = some loc ∧ loc.path = target := by
  intro fuel
  induction fuel with
  | zero => intro lo hi i h; simp [binarySearchGo] at h
  | succ n ih =>
    intro lo hi i h
    by_cases hlh : lo < hi
    · simp only [binarySearchGo, if_pos hlh] at h
      rcases hmid : locs[(lo + hi) / 2]? with _ | loc
      · simp only [hmid] at h
        exact absurd h (by simp)
      · simp only [hmid] at h
        rcases hcmp : listIntCompare loc.path target with _ | _ | _ <;> simp only [hcmp] at h
        · exact ih _ _ _ h
        · rw [listIntCompare_eq_iff] at hcmp
          obtain rfl : (lo + hi) / 2 = i := by simpa using h
          exact ⟨loc, hmid, hcmp⟩
        · exact ih _ _ _ h
    · simp only [binarySearchGo, if_neg hlh] at h
      exact absurd h (by simp)

/-- Claim C8: the comment index is pre-filtered to non-empty even-length
structural paths and pre-sorted by path; the per-declaration lookup is an
exact binary search, so any hit has exactly the searched path, and a path
absent from the index makes the comment lookup - and with it the whole
file generation, which propagates the fault - abort. -/
theorem c8_comment_index (locs : List Location) (target : List Int) :
    (∀ loc ∈ processSourceInfo locs, loc.path ≠ [] ∧ loc.path.length % 2 = 0) ∧
    List.Sorted locationLe (processSourceInfo locs) ∧
    (∀ i, binarySearchPath (processSourceInfo locs) target = some i →
       ∃ loc, (processSourceInfo locs)[i]? = some loc ∧ loc.path = target) ∧
    ((∀ loc ∈ processSourceInfo locs, loc.path ≠ target) →
       ∀ cg : CodeGenerator, cg.source_info = processSourceInfo locs → cg.path = target →
         append_doc cg = .error .locationMissing) := by
  refine ⟨?_, ?_, ?_, ?_⟩
  · intro loc hloc
    unfold processSourceInfo at hloc
    have hmem : loc ∈ (locs.filter (fun l => l.path.length != 0 && l.path.length % 2 == 0)) :=
      (List.perm_insertionSort locationLe _).mem_iff.mp hloc
    have := List.of_mem_filter hmem
    simp only [Bool.and_eq_true, bne_iff_ne, beq_iff_eq] at this
    exact ⟨fun hnil => this.1 (by simp [hnil]), this.2⟩
  · exact List.sorted_insertionSort locationLe _
  · intro i h
    exact binarySearchGo_some _ target _ _ _ _ h
  · intro habs cg hsi hpath
    have hnone : binarySearchPath (processSourceInfo locs) target = none := by
      rcases hsearch : binarySearchPath (processSourceInfo locs) target with _ | i
      · rfl
      · obtain ⟨loc, hget, hpath2⟩ := binarySearchGo_some _ target _ _ _ _ hsearch
        have hmem : loc ∈ processSourceInfo locs := by
          rw [List.getElem?_eq_some_iff] at hget
          obtain ⟨hlt, rfl⟩ := hget
          exact List.getElem_mem hlt
        exact absurd hpath2 (habs loc hmem)
    unfold append_doc location
    rw [hsi, hpath, hnone]


/-! ## State-effect lemmas -/

theorem sameCtx_refl (cg : CodeGenerator) : SameCtx cg cg :=
  ⟨rfl, rfl, rfl, rfl, rfl, rfl, rfl⟩

theorem sameCtx_trans {a b c : CodeGenerator} (h1 : SameCtx a b) (h2 : SameCtx b c) :
    SameCtx a c := by
  obtain ⟨x1, x2, x3, x4, x5, x6, x7⟩ := h1
  obtain ⟨y1, y2, y3, y4, y5, y6, y7⟩ := h2
  exact ⟨y1.trans x1, y2.trans x2, y3.trans x3, y4.trans x4, y5.trans x5, y6.trans x6,
    y7.trans x7⟩

theorem pushStr_eq (cg : CodeGenerator) (s : String) :
    pushStr cg s = { cg with buf := cg.buf ++ s } := by
  cases cg; rfl

theorem pushIndent_eq (cg : CodeGenerator) :
    pushIndent cg = { cg with buf := cg.buf ++ indentOf cg.depth } := by
  cases cg; rfl

theorem pushPath_eq (cg : CodeGenerator) (i : Int) :
    pushPath cg i = { cg with path := cg.path ++ [i] } := by
  cases cg; rfl

theorem popPath_eq (cg : CodeGenerator) :
    popPath cg = { cg with path := cg.path.dropLast } := by
  cases cg; rfl

theorem depthInc_eq (cg : CodeGenerator) : depthInc cg = { cg with depth := cg.depth + 1 } := by
  cases cg; rfl

theorem depthDec_eq (cg : CodeGenerator) : depthDec cg = { cg with depth := cg.depth - 1 } := by
  cases cg; rfl

theorem appendTrace_eq (cg : CodeGenerator) (e : Emitted) :
    appendTrace cg e = { cg with trace := cg.trace ++ [e] } := by
  cases cg; rfl

theorem pushStr_ctx (cg : CodeGenerator) (s : String) :
    SameCtx cg (pushStr cg s) ∧ (pushStr cg s).trace = cg.trace := by
  rw [pushStr_eq]
  exact ⟨sameCtx_refl _, rfl⟩

theorem pushIndent_ctx (cg : CodeGenerator) :
    SameCtx cg (pushIndent cg) ∧ (pushIndent cg).trace = cg.trace := by
  rw [pushIndent_eq]
  exact ⟨sameCtx_refl _, rfl⟩

theorem appendTrace_ctx (cg : CodeGenerator) (e : Emitted) :
    SameCtx cg (appendTrace cg e) ∧ (appendTrace cg e).trace = cg.trace ++ [e] := by
  rw [appendTrace_eq]
  exact ⟨sameCtx_refl _, rfl⟩

theorem append_doc_effect (cg st : CodeGenerator) (h : append_doc cg = .ok st) :
    SameCtx cg st ∧ st.trace = cg.trace := by
  unfold append_doc at h
  rcases hloc : location cg with e | loc <;> rw [hloc] at h
  · cases h
  · cases h
    exact pushStr_ctx cg _

theorem attr_foldl_effect (l : List (String × String))
    (f : CodeGenerator → String × String → CodeGenerator)
    (hf : ∀ acc p, f acc p = acc ∨ f acc p = pushStr (pushIndent acc) (p.2 ++ "\n")) :
    ∀ acc, SameCtx acc (l.foldl f acc) ∧ (l.foldl f acc).trace = acc.trace := by
  induction l with
  | nil => intro acc; exact ⟨sameCtx_refl _, rfl⟩
  | cons p rest ih =>
    intro acc
    rw [List.foldl_cons]
    rcases hf acc p with hcase | hcase <;> rw [hcase]
    · exact ih acc
    · obtain ⟨hc1, ht1⟩ := ih (pushStr (pushIndent acc) (p.2 ++ "\n"))
      have hc0 : SameCtx acc (pushStr (pushIndent acc) (p.2 ++ "\n")) ∧
          (pushStr (pushIndent acc) (p.2 ++ "\n")).trace = acc.trace := by
        obtain ⟨a1, a2⟩ := pushIndent_ctx acc
        obtain ⟨b1, b2⟩ := pushStr_ctx (pushIndent acc) (p.2 ++ "\n")
        exact ⟨sameCtx_trans a1 b1, b2.trans a2⟩
      exact ⟨sameCtx_trans hc0.1 hc1, ht1.trans hc0.2⟩

theorem append_type_attributes_effect (cg st : CodeGenerator) (msg_name : String)
    (h : append_type_attributes cg msg_name = .ok st) :
    SameCtx cg st ∧ st.trace = cg.trace := by
  unfold append_type_attributes at h
  split_ifs at h
  cases h
  exact attr_foldl_effect _ _ (fun acc p => by split_ifs <;> simp) cg

theorem append_field_attributes_effect (cg st : CodeGenerator) (msg_name field_name : String)
    (h : append_field_attributes cg msg_name field_name = .ok st) :
    SameCtx cg st ∧ st.trace = cg.trace := by
  unfold append_field_attributes at h
  split_ifs at h
  cases h
  exact attr_foldl_effect _ _ (fun acc p => by split_ifs <;> simp) cg


/-! ## Effect lemmas for the field emitters -/

theorem pushPair_ctx (cg : CodeGenerator) (s : String) :
    SameCtx cg (pushStr (pushIndent cg) s) ∧ (pushStr (pushIndent cg) s).trace = cg.trace := by
  obtain ⟨a1, a2⟩ := pushIndent_ctx cg
  obtain ⟨b1, b2⟩ := pushStr_ctx (pushIndent cg) s
  exact ⟨sameCtx_trans a1 b1, b2.trans a2⟩

/-- Effect of `append_oneof_field`: context preserved; exactly one trace
entry, holding the union type's relative name and the member tags in
declaration order. -/
theorem append_oneof_field_effect (cg st : CodeGenerator) (mn fq : String)
    (oneof : OneofDescriptorProto) (fields : List (FieldDescriptorProto × Nat))
    (h : append_oneof_field cg mn fq oneof fields = .ok st) :
    SameCtx cg st ∧ st.trace = cg.trace ++
      [.oneofFieldDecl (to_snake mn ++ "::" ++ to_upper_camel oneof.name)
        (fields.map (fun p => p.1.number))] := by
  unfold append_oneof_field at h
  split at h
  · cases h
  · next cgA heqA =>
    try simp only [] at h
    split at h
    · cases h
    · next cgB heqB =>
      cases h
      obtain ⟨hA, tA⟩ := append_doc_effect _ _ heqA
      obtain ⟨hP1, tP1⟩ := pushPair_ctx cgA _
      obtain ⟨hB, tB⟩ := append_field_attributes_effect _ _ _ _ heqB
      obtain ⟨hP2, tP2⟩ := pushPair_ctx cgB _
      obtain ⟨hT, tT⟩ := appendTrace_ctx (pushStr (pushIndent cgB) _) _
      refine ⟨?_, ?_⟩
      · exact sameCtx_trans hA (sameCtx_trans hP1 (sameCtx_trans hB (sameCtx_trans hP2 hT)))
      · rw [tT, tP2, tB, tP1, tA]


/-- Effect of `append_map_field`: context preserved; exactly one trace
entry, the associative-container field built from the entry's key and value
descriptors. -/
theorem append_map_field_effect (cg st : CodeGenerator) (msg : String)
    (field key value : FieldDescriptorProto)
    (h : append_map_field cg msg field key value = .ok st) :
    SameCtx cg st ∧ st.trace = cg.trace ++ [.fieldDecl field.name (.mapField key value)] := by
  unfold append_map_field at h
  split at h
  · cases h
  · next key_ty hkty =>
    split at h
    · cases h
    · next value_ty hvty =>
      split at h
      · cases h
      · next cgA heqA =>
        try simp only [] at h
        split at h
        · cases h
        · next key_tag hktag =>
          split at h
          · cases h
          · next value_tag hvtag =>
            split at h
            · cases h
            · next cgB heqB =>
              cases h
              obtain ⟨hA, tA⟩ := append_doc_effect _ _ heqA
              obtain ⟨hP1, tP1⟩ := pushPair_ctx cgA _
              obtain ⟨hB, tB⟩ := append_field_attributes_effect _ _ _ _ heqB
              obtain ⟨hP2, tP2⟩ := pushPair_ctx cgB _
              obtain ⟨hT, tT⟩ := appendTrace_ctx (pushStr (pushIndent cgB) _) _
              refine ⟨sameCtx_trans hA (sameCtx_trans hP1 (sameCtx_trans hB
                (sameCtx_trans hP2 hT))), ?_⟩
              rw [tT, tP2, tB, tP1, tA]

/-- Effect of `append_field`: context preserved; for a group-typed field the
state is untouched, otherwise exactly one trace entry records the field's
container shape (the `Option` wrapper decision of `CodeGenerator.optional`,
the raw repeated comparison, and the `fieldBoxed` decision) and attribute
line. -/
theorem append_field_effect (cg st : CodeGenerator) (msg : String)
    (f : FieldDescriptorProto) (h : append_field cg msg f = .ok st) :
    SameCtx cg st ∧
    ((f.ftype = .group ∧ st = cg) ∨
     (f.ftype ≠ .group ∧ ∃ attr, st.trace = cg.trace ++
       [.fieldDecl f.name (.plain (CodeGenerator.optional cg f) (f.label == some 3)
         (fieldBoxed cg msg f) attr)])) := by
  unfold append_field at h
  by_cases hg : f.ftype = .group
  · rw [if_pos hg] at h
    cases h
    exact ⟨sameCtx_refl _, .inl ⟨hg, rfl⟩⟩
  · rw [if_neg hg] at h
    try simp only [] at h
    split at h
    · cases h
    · next ty hty =>
      split at h
      · cases h
      · next cgA heqA =>
        try simp only [] at h
        split at h
        · cases h
        · next type_tag httag =>
          split at h
          · cases h
          · next defaultPart hdp =>
            try simp only [] at h
            split at h
            · cases h
            · next cgB heqB =>
              cases h
              obtain ⟨hA, tA⟩ := append_doc_effect _ _ heqA
              obtain ⟨hP1, tP1⟩ := pushPair_ctx cgA _
              obtain ⟨hB, tB⟩ := append_field_attributes_effect _ _ _ _ heqB
              obtain ⟨hP2, tP2⟩ := pushPair_ctx cgB _
              obtain ⟨hT, tT⟩ := appendTrace_ctx (pushStr (pushIndent cgB) _) _
              refine ⟨sameCtx_trans hA (sameCtx_trans hP1 (sameCtx_trans hB
                (sameCtx_trans hP2 hT))), .inr ⟨hg, ?_⟩⟩
              apply Exists.intro
              rw [tT, tP2, tB, tP1, tA]

/-- Effect of `append_enum_value`: context preserved; one trace entry with
the rendered (possibly prefix-stripped) name and the numeric value. -/
theorem append_enum_value_effect (cg st : CodeGenerator) (fq : String)
    (value : EnumValueDescriptorProto) (pfx : Option String)
    (h : append_enum_value cg fq value pfx = .ok st) :
    SameCtx cg st ∧
    st.trace = cg.trace ++ [.enumValue (renderValueNameOpt pfx value) value.number] := by
  unfold append_enum_value at h
  split at h
  · cases h
  · next cgA heqA =>
    split at h
    · cases h
    · next cgB heqB =>
      cases h
      obtain ⟨hA, tA⟩ := append_doc_effect _ _ heqA
      obtain ⟨hB, tB⟩ := append_field_attributes_effect _ _ _ _ heqB
      obtain ⟨hP2, tP2⟩ := pushPair_ctx cgB _
      obtain ⟨hT, tT⟩ := appendTrace_ctx (pushStr (pushIndent cgB) _) _
      refine ⟨sameCtx_trans hA (sameCtx_trans hB (sameCtx_trans hP2 hT)), ?_⟩
      rw [tT, tP2, tB, tA]
      rfl


/-! ## Claim C2: the boxing decision -/

/-- Claim C2: a non-repeated message-typed field is boxed iff the recursion
oracle reports the field's target type as nested inside the enclosing
message; a repeated field is never boxed.  The emitted declaration's boxed
flag is exactly `fieldBoxed` (first conjunct ties it to the trace entry). -/
theorem c2_boxed_iff_oracle (cg st : CodeGenerator) (msg : String)
    (f : FieldDescriptorProto) (hok : append_field cg msg f = .ok st)
    (hg : f.ftype ≠ .group) :
    (∃ attr, st.trace = cg.trace ++
      [.fieldDecl f.name (.plain (CodeGenerator.optional cg f) (f.label == some 3)
        (fieldBoxed cg msg f) attr)]) ∧
    (fieldBoxed cg msg f = true ↔
      (f.label ≠ some 3 ∧ f.ftype = .message ∧ cg.is_nested (typeNameAccessor f) msg = true)) ∧
    (f.label = some 3 → fieldBoxed cg msg f = false) := by
  obtain ⟨-, hcase⟩ := append_field_effect cg st msg f hok
  rcases hcase with ⟨hgg, -⟩ | ⟨-, hex⟩
  · exact absurd hgg hg
  refine ⟨hex, ?_, ?_⟩
  · constructor
    · intro hb
      simp only [fieldBoxed, Bool.and_eq_true, Bool.not_eq_true', beq_eq_false_iff_ne,
        beq_iff_eq, ne_eq] at hb
      exact ⟨hb.1.1, hb.1.2, hb.2⟩
    · rintro ⟨h1, h2, h3⟩
      simp only [fieldBoxed, Bool.and_eq_true, Bool.not_eq_true', beq_eq_false_iff_ne,
        beq_iff_eq, ne_eq]
      exact ⟨⟨h1, h2⟩, h3⟩
  · intro h3
    simp [fieldBoxed, h3]

/-- Witness for claim C2: a concrete run on a singular message-typed field
whose target the oracle reports as recursive; the field is boxed. -/
theorem c2_witness :
    ∃ st, append_field c2Cg ".w.M" c2Field = .ok st ∧
      (fieldBoxed c2Cg ".w.M" c2Field = true ↔
        (c2Field.label ≠ some 3 ∧ c2Field.ftype = .message ∧
          c2Cg.is_nested (typeNameAccessor c2Field) ".w.M" = true)) ∧
      fieldBoxed c2Cg ".w.M" c2Field = true := by
  obtain ⟨st, hst⟩ : ∃ st, append_field c2Cg ".w.M" c2Field = .ok st := ⟨_, rfl⟩
  exact ⟨st, hst, (c2_boxed_iff_oracle c2Cg st ".w.M" c2Field hst (by decide)).2.1, by decide⟩

/-! ## Claim C4: oneof wire-tag metadata -/

/-- Claim C4, counterexample: a oneof whose members are declared with tags
5 then 3 emits the tag list `[5, 3]` - the declaration order - which is not
sorted ascending. -/
theorem c4_counterexample :
    (append_oneof_field c4Cg "Msg" ".test.Msg" c4Oneof
        [(c4FieldA, 0), (c4FieldB, 1)]).map CodeGenerator.trace =
      .ok [.oneofFieldDecl "msg::Choice" [5, 3]] ∧
    ¬ List.Sorted (· ≤ ·) ([5, 3] : List Int) := by
  exact ⟨by rfl, by decide⟩

/-- Claim C4 (amended): the union-field wire-tag metadata consists of the
union type's relative name plus the member field tags in field declaration
order (the order the members appear in the message), not sorted. -/
theorem c4_oneof_tags_declaration_order (cg st : CodeGenerator) (mn fq : String)
    (oneof : OneofDescriptorProto) (fields : List (FieldDescriptorProto × Nat))
    (hok : append_oneof_field cg mn fq oneof fields = .ok st) :
    st.trace = cg.trace ++
      [.oneofFieldDecl (to_snake mn ++ "::" ++ to_upper_camel oneof.name)
        (fields.map (fun p => p.1.number))] :=
  (append_oneof_field_effect cg st mn fq oneof fields hok).2

/-- Witness for claim C4: the declaration-order tag list evaluated on the
concrete descending-tag oneof. -/
theorem c4_witness :
    ∃ st, append_oneof_field c4Cg "Msg" ".test.Msg" c4Oneof
        [(c4FieldA, 0), (c4FieldB, 1)] = .ok st ∧
      st.trace = c4Cg.trace ++ [.oneofFieldDecl "msg::Choice" [5, 3]] := by
  obtain ⟨st, hst⟩ : ∃ st, append_oneof_field c4Cg "Msg" ".test.Msg" c4Oneof
      [(c4FieldA, 0), (c4FieldB, 1)] = .ok st := ⟨_, rfl⟩
  refine ⟨st, hst, ?_⟩
  rw [c4_oneof_tags_declaration_order c4Cg st "Msg" ".test.Msg" c4Oneof
    [(c4FieldA, 0), (c4FieldB, 1)] hst]
  rfl

/-! ## Claim C1: the end-to-end Outer example -/

/-- Claim C1, counterexample: on the example message, the declaration
emitted for `inner` does carry the optional container wrapper (its trace
entry records `optionalWrap = true` and its attribute contains
`optional`), and the declaration for the packed repeated field `nums`
carries no packing metadata in its wire-tag attribute (no `packed` token at
all: the generator only ever emits `packed="false"`, for fields that must
not be packed). -/
theorem c1_counterexample :
    (append_message c1Cg c1Outer).map CodeGenerator.trace = .ok c1Trace ∧
    Emitted.fieldDecl "inner" (.plain true false false c1InnerAttr) ∈ c1Trace ∧
    strContains c1InnerAttr "optional" = true ∧
    strContains c1NumsAttr "packed" = false := by
  refine ⟨by rfl, by decide, by decide, by decide⟩

/-- Claim C1 (amended): in the default-present dialect the `inner` field is
emitted wrapped in an optional container (message-typed singular fields
always carry explicit presence) and is neither boxed nor repeated; the
packed repeated `nums` field is emitted with `repeated` metadata and no
packing override (absence of `packed="false"` means packed encoding
applies). -/
theorem c1_outer_example :
    (append_message c1Cg c1Outer).map CodeGenerator.trace = .ok c1Trace ∧
    CodeGenerator.optional c1Cg c1FieldInner = true ∧
    fieldBoxed c1Cg ".test.Outer" c1FieldInner = false ∧
    can_pack c1FieldNums = true ∧
    strContains c1NumsAttr "packed=\"false\"" = false := by
  refine ⟨by rfl, by decide, by decide, by decide, by decide⟩


/-! ## Claim C6: enum value aliasing -/

theorem pushPath_trace (cg : CodeGenerator) (i : Int) : (pushPath cg i).trace = cg.trace := by
  rw [pushPath_eq]

theorem popPath_trace (m : CodeGenerator) : (popPath m).trace = m.trace := by
  rw [popPath_eq]

theorem pushPath_config (cg : CodeGenerator) (i : Int) :
    (pushPath cg i).config = cg.config := by
  rw [pushPath_eq]

/-- A path push followed (after context-preserving work) by a path pop
restores the context. -/
theorem bracket_ctx (cg mid : CodeGenerator) (i : Int) (h : SameCtx (pushPath cg i) mid) :
    SameCtx cg (popPath mid) := by
  obtain ⟨h1, h2, h3, h4, h5, h6, h7⟩ := h
  rw [pushPath_eq] at h1 h2 h3 h4 h5 h6 h7
  rw [popPath_eq]
  refine ⟨h1, h2, h3, h4, h5, h6, ?_⟩
  show mid.path.dropLast = cg.path
  rw [h7]
  simp

/-- Effect of the enum value loop: context preserved, and the emitted trace
entries are exactly the first-occurrence-wins filtered values, rendered with
the loop's prefix-stripping rule. -/
theorem append_enum_values_effect (fq ename : String) :
    ∀ (values : List EnumValueDescriptorProto) (cg st : CodeGenerator) (seen : List Int)
      (idx : Nat), append_enum_values cg fq ename seen idx values = .ok st →
      SameCtx cg st ∧ st.trace = cg.trace ++
        (firstWinsValues seen values).map
          (fun v => .enumValue (renderEnumValueName cg.config ename v) v.number) := by
  intro values
  induction values with
  | nil =>
    intro cg st seen idx h
    cases h
    exact ⟨sameCtx_refl _, by simp [firstWinsValues]⟩
  | cons v rest ih =>
    intro cg st seen idx h
    unfold append_enum_values at h
    by_cases hseen : seen.contains v.number
    · rw [if_pos hseen] at h
      obtain ⟨hc, ht⟩ := ih cg st seen (idx + 1) h
      refine ⟨hc, ?_⟩
      rw [ht]
      congr 1
      rw [show firstWinsValues seen (v :: rest) = firstWinsValues seen rest from by
        rw [firstWinsValues, if_pos hseen]]
    · rw [if_neg hseen] at h
      try simp only [] at h
      split at h
      · cases h
      · next cgA heqA =>
        obtain ⟨hA, tA⟩ := append_enum_value_effect _ _ _ _ _ heqA
        obtain ⟨hc, ht⟩ := ih (popPath cgA) st (v.number :: seen) (idx + 1) h
        have hctx : SameCtx cg (popPath cgA) := bracket_ctx cg cgA (idx : Int) hA
        refine ⟨sameCtx_trans hctx hc, ?_⟩
        rw [ht, popPath_trace, tA, pushPath_trace]
        have hcfg : (popPath cgA).config = cg.config := hctx.1
        have hcfg2 : (pushPath cg (idx : Int)).config = cg.config := pushPath_config cg _
        rw [hcfg, hcfg2]
        rw [show firstWinsValues seen (v :: rest) = v :: firstWinsValues (v.number :: seen) rest
          from by rw [firstWinsValues, if_neg hseen]]
        simp only [List.map_cons, List.append_assoc, List.singleton_append]
        rfl


theorem bracket_depth_path_ctx (base mid : CodeGenerator) (i : Int)
    (h : SameCtx (pushPath (depthInc base) i) mid) :
    SameCtx base (depthDec (popPath mid)) := by
  obtain ⟨h1, h2, h3, h4, h5, h6, h7⟩ := h
  rw [pushPath_eq, depthInc_eq] at h1 h2 h3 h4 h5 h6 h7
  simp only [] at h1 h2 h3 h4 h5 h6 h7
  rw [depthDec_eq, popPath_eq]
  refine ⟨h1, h2, h3, h4, h5, ?_, ?_⟩
  · show mid.depth - 1 = base.depth
    omega
  · show mid.path.dropLast = base.path
    rw [h7]
    simp

theorem depthDec_popPath_trace (m : CodeGenerator) :
    (depthDec (popPath m)).trace = m.trace := by
  rw [depthDec_eq, popPath_eq]

theorem depthInc_config (m : CodeGenerator) : (depthInc m).config = m.config := by
  rw [depthInc_eq]

theorem depthInc_trace (m : CodeGenerator) : (depthInc m).trace = m.trace := by
  rw [depthInc_eq]

/-- Effect of `append_enum`: context (including the package scope) is
restored; a skipped well-known enum leaves the state untouched; otherwise
the trace gains the enum declaration and the first-wins filtered values. -/
theorem append_enum_effect (cg st : CodeGenerator) (desc : EnumDescriptorProto)
    (h : append_enum cg desc = .ok st) :
    SameCtx cg st ∧
    ((known_type cg.config ("." ++ cg.package ++ "." ++ desc.name)).isSome = true → st = cg) ∧
    (known_type cg.config ("." ++ cg.package ++ "." ++ desc.name) = none →
      st.trace = cg.trace ++ [.enumDecl ("." ++ cg.package ++ "." ++ desc.name)] ++
        (firstWinsValues [] desc.value).map
          (fun v => .enumValue (renderEnumValueName cg.config desc.name v) v.number)) := by
  unfold append_enum at h
  by_cases hk : (known_type cg.config ("." ++ cg.package ++ "." ++ desc.name)).isSome = true
  · rw [if_pos hk] at h
    cases h
    exact ⟨sameCtx_refl _, fun _ => rfl, fun hn => by rw [hn] at hk; cases hk⟩
  · rw [if_neg hk] at h
    split at h
    · cases h
    · next cgA heqA =>
      try simp only [] at h
      split at h
      · cases h
      · next cgB heqB =>
        split at h
        · cases h
        · next cgC heqC =>
          cases h
          obtain ⟨hA, tA⟩ := append_doc_effect _ _ heqA
          obtain ⟨hP1, tP1⟩ := pushPair_ctx cgA _
          obtain ⟨hB, tB⟩ := append_type_attributes_effect _ _ _ heqB
          obtain ⟨hP2, tP2⟩ := pushPair_ctx cgB
            ("pub enum " ++ to_upper_camel desc.name ++ " \x7b\n")
          obtain ⟨hT, tT⟩ :=
            appendTrace_ctx
              (pushStr (pushIndent cgB) ("pub enum " ++ to_upper_camel desc.name ++ " \x7b\n"))
              (Emitted.enumDecl ("." ++ cg.package ++ "." ++ desc.name))
          obtain ⟨hV, tV⟩ := append_enum_values_effect _ _ _ _ _ _ _ heqC
          have hMid : SameCtx cg
              (appendTrace
                (pushStr (pushIndent cgB) ("pub enum " ++ to_upper_camel desc.name ++ " \x7b\n"))
                (Emitted.enumDecl ("." ++ cg.package ++ "." ++ desc.name))) :=
            sameCtx_trans hA (sameCtx_trans hP1 (sameCtx_trans hB (sameCtx_trans hP2 hT)))
          have hPost : SameCtx cg (depthDec (popPath cgC)) :=
            sameCtx_trans hMid (bracket_depth_path_ctx _ cgC 2 hV)
          obtain ⟨hQ, tQ⟩ := pushPair_ctx (depthDec (popPath cgC)) ("\x7d\n")
          refine ⟨sameCtx_trans hPost hQ, fun hks => absurd hks hk, fun _ => ?_⟩
          have hMc : (pushPath (depthInc
              (appendTrace
                (pushStr (pushIndent cgB) ("pub enum " ++ to_upper_camel desc.name ++ " \x7b\n"))
                (Emitted.enumDecl ("." ++ cg.package ++ "." ++ desc.name)))) 2).config
              = cg.config := by
            rw [pushPath_config, depthInc_config]
            exact hMid.1
          rw [tQ, depthDec_popPath_trace, tV, hMc, pushPath_trace, depthInc_trace]
          rw [tT, tP2, tB, tP1, tA]


/-- C6: for every enum descriptor whose fully-qualified name is not a
well-known overridden type, the emitted trace consists of the enum
declaration followed by exactly the first-wins filtered value list: when
several values share a numeric value only the first occurrence in
declaration order is emitted, and every later occurrence is silently
dropped. -/
theorem c6_enum_first_wins (cg st : CodeGenerator) (desc : EnumDescriptorProto)
    (hok : append_enum cg desc = .ok st)
    (hk : known_type cg.config ("." ++ cg.package ++ "." ++ desc.name) = none) :
    st.trace = cg.trace ++ [Emitted.enumDecl ("." ++ cg.package ++ "." ++ desc.name)] ++
      (firstWinsValues [] desc.value).map
        (fun v => Emitted.enumValue (renderEnumValueName cg.config desc.name v) v.number) :=
  (append_enum_effect cg st desc hok).2.2 hk

/-- Witness for C6: the value list {A=1, B=1, C=2} emits exactly the
entries {A=1, C=2}. -/
theorem c6_witness :
    ∃ st, append_enum c6Cg c6Desc = .ok st ∧
      st.trace = [Emitted.enumDecl ".test.E",
        Emitted.enumValue "A" 1, Emitted.enumValue "C" 2] := by
  obtain ⟨st, hst⟩ : ∃ st, append_enum c6Cg c6Desc = .ok st := ⟨_, rfl⟩
  refine ⟨st, hst, ?_⟩
  rw [c6_enum_first_wins c6Cg st c6Desc hst (by rfl)]
  rfl


/-- Witness for C8: the concrete index built from one location with path
[4, 0] is filtered and sorted, and looking up the absent path [9] aborts
generation with the fatal missing-location fault. -/
theorem c8_witness :
    (∀ loc ∈ processSourceInfo c8Locs, loc.path ≠ [] ∧ loc.path.length % 2 = 0) ∧
    List.Sorted locationLe (processSourceInfo c8Locs) ∧
    append_doc c8Cg = .error .locationMissing := by
  obtain ⟨h1, h2, _, h4⟩ := c8_comment_index c8Locs [9]
  exact ⟨h1, h2, h4 (by decide) c8Cg rfl rfl⟩


theorem bracket_path_depth_ctx (base mid : CodeGenerator) (i : Int)
    (h : SameCtx (depthInc (pushPath base i)) mid) :
    SameCtx base (popPath (depthDec mid)) := by
  obtain ⟨h1, h2, h3, h4, h5, h6, h7⟩ := h
  rw [depthInc_eq, pushPath_eq] at h1 h2 h3 h4 h5 h6 h7
  simp only [] at h1 h2 h3 h4 h5 h6 h7
  rw [popPath_eq, depthDec_eq]
  refine ⟨h1, h2, h3, h4, h5, ?_, ?_⟩
  · show mid.depth - 1 = base.depth
    omega
  · show mid.path.dropLast = base.path
    rw [h7]
    simp

theorem popPath_depthDec_trace (m : CodeGenerator) :
    (popPath (depthDec m)).trace = m.trace := by
  rw [popPath_eq, depthDec_eq]

/-- Effect of the oneof member-variant loop: context preserved, no trace
entries. -/
theorem append_oneof_variants_effect (onm mn : String) :
    ∀ (fields : List (FieldDescriptorProto × Nat)) (cg st : CodeGenerator),
      append_oneof_variants cg onm mn fields = .ok st →
      SameCtx cg st ∧ st.trace = cg.trace := by
  intro fields
  induction fields with
  | nil =>
    intro cg st h
    cases h
    exact ⟨sameCtx_refl _, rfl⟩
  | cons p rest ih =>
    obtain ⟨field, idx⟩ := p
    intro cg st h
    unfold append_oneof_variants at h
    by_cases hg : field.ftype = .group
    · rw [if_pos hg] at h
      exact ih cg st h
    · rw [if_neg hg] at h
      try simp only [] at h
      split at h
      · cases h
      · next cgA heqA =>
        try simp only [] at h
        split at h
        · cases h
        · next ty_tag htag =>
          split at h
          · cases h
          · next cgB heqB =>
            try simp only [] at h
            split at h
            · cases h
            · next ty hty =>
              obtain ⟨hA, tA⟩ := append_doc_effect _ _ heqA
              have hPop : SameCtx cg (popPath cgA) := bracket_ctx cg cgA _ hA
              obtain ⟨hI1, tI1⟩ := pushIndent_ctx (popPath cgA)
              obtain ⟨hS1, tS1⟩ := pushStr_ctx (pushIndent (popPath cgA)) _
              obtain ⟨hB, tB⟩ := append_field_attributes_effect _ _ _ _ heqB
              obtain ⟨hI2, tI2⟩ := pushIndent_ctx cgB
              obtain ⟨hS2, tS2⟩ := pushStr_ctx (pushIndent cgB) _
              obtain ⟨hc, ht⟩ := ih _ st h
              refine ⟨sameCtx_trans hPop (sameCtx_trans hI1 (sameCtx_trans hS1
                (sameCtx_trans hB (sameCtx_trans hI2 (sameCtx_trans hS2 hc))))), ?_⟩
              rw [ht, tS2, tI2, tB, tS1, tI1, popPath_trace, tA, pushPath_trace]

/-- Effect of `append_oneof`: context preserved; exactly one trace entry,
the oneof union declaration. -/
theorem append_oneof_effect (cg st : CodeGenerator) (mn : String)
    (oneof : OneofDescriptorProto) (idx : Int) (fields : List (FieldDescriptorProto × Nat))
    (h : append_oneof cg mn oneof idx fields = .ok st) :
    SameCtx cg st ∧ st.trace = cg.trace ++ [Emitted.oneofDecl (to_upper_camel oneof.name)] := by
  unfold append_oneof at h
  try simp only [] at h
  split at h
  · cases h
  · next cgA heqA =>
    try simp only [] at h
    split at h
    · cases h
    · next cgB heqB =>
      split at h
      · cases h
      · next cgC heqC =>
        cases h
        obtain ⟨hA, tA⟩ := append_doc_effect _ _ heqA
        have hPop2 : SameCtx cg (popPath (popPath cgA)) :=
          bracket_ctx cg (popPath cgA) 8 (bracket_ctx (pushPath cg 8) cgA idx hA)
        obtain ⟨hP1, tP1⟩ := pushPair_ctx (popPath (popPath cgA)) "#[derive(Clone, Oneof, PartialEq)]\n"
        obtain ⟨hB, tB⟩ := append_type_attributes_effect _ _ _ heqB
        obtain ⟨hP2, tP2⟩ := pushPair_ctx cgB ("pub enum " ++ to_upper_camel oneof.name ++ " \x7b\n")
        obtain ⟨hT, tT⟩ := appendTrace_ctx
          (pushStr (pushIndent cgB) ("pub enum " ++ to_upper_camel oneof.name ++ " \x7b\n"))
          (Emitted.oneofDecl (to_upper_camel oneof.name))
        obtain ⟨hV, tV⟩ := append_oneof_variants_effect _ _ _ _ _ heqC
        have hMid : SameCtx cg
            (appendTrace
              (pushStr (pushIndent cgB) ("pub enum " ++ to_upper_camel oneof.name ++ " \x7b\n"))
              (Emitted.oneofDecl (to_upper_camel oneof.name))) :=
          sameCtx_trans hPop2 (sameCtx_trans hP1 (sameCtx_trans hB (sameCtx_trans hP2 hT)))
        have hPost : SameCtx cg (popPath (depthDec cgC)) :=
          sameCtx_trans hMid (bracket_path_depth_ctx _ cgC 2 hV)
        obtain ⟨hQ, tQ⟩ := pushPair_ctx (popPath (depthDec cgC)) "\x7d\n"
        refine ⟨sameCtx_trans hPost hQ, ?_⟩
        rw [tQ, popPath_depthDec_trace, tV, depthInc_trace, pushPath_trace, tT, tP2, tB, tP1,
          popPath_trace, popPath_trace, tA, pushPath_trace, pushPath_trace]


/-- Effect of the non-oneof field loop: context preserved; the new trace
entries are all field declarations (never struct declarations), and every
field whose type name is a collected map-entry contributes an
associative-container field entry built from the entry pair. -/
theorem append_message_fields_effect (fq : String)
    (map_types : List (String × (FieldDescriptorProto × FieldDescriptorProto))) :
    ∀ (fields : List (FieldDescriptorProto × Nat)) (cg st : CodeGenerator),
      append_message_fields cg fq map_types fields = .ok st →
      SameCtx cg st ∧ ∃ ts, st.trace = cg.trace ++ ts ∧ (∀ e ∈ ts, StructSafe e) ∧
        (∀ f i, (f, i) ∈ fields → ∀ n kv, f.type_name = some n →
          mapTypesGet map_types n = some kv →
          Emitted.fieldDecl f.name (FieldKind.mapField kv.1 kv.2) ∈ ts) := by
  intro fields
  induction fields with
  | nil =>
    intro cg st h
    cases h
    exact ⟨sameCtx_refl _, [], by simp, by simp, by simp⟩
  | cons p rest ih =>
    obtain ⟨field, idx⟩ := p
    intro cg st h
    unfold append_message_fields at h
    try simp only [] at h
    split at h
    · cases h
    · next cg3 heq =>
      split at heq
      · next kv hkv =>
        obtain ⟨hA, tA⟩ := append_map_field_effect _ _ _ _ _ _ heq
        have hPop : SameCtx cg (popPath cg3) := bracket_ctx cg cg3 _ hA
        obtain ⟨hc, ts2, ht2, hsafe2, hmem2⟩ := ih (popPath cg3) st h
        refine ⟨sameCtx_trans hPop hc,
          Emitted.fieldDecl field.name (FieldKind.mapField kv.1 kv.2) :: ts2, ?_, ?_, ?_⟩
        · rw [ht2, popPath_trace, tA, pushPath_trace]
          simp
        · intro e he
          rcases List.mem_cons.mp he with rfl | htl
          · intro fqn hcontra
            simp at hcontra
          · exact hsafe2 e htl
        · intro f i hfi n kv2 hfn hmt
          rcases List.mem_cons.mp hfi with hhd | htl
          · simp only [Prod.mk.injEq] at hhd
            obtain ⟨rfl, rfl⟩ := hhd
            rw [hfn] at hkv
            simp only [Option.some_bind] at hkv
            rw [hmt] at hkv
            injection hkv with hkk
            rw [hkk]
            exact List.mem_cons_self _ _
          · exact List.mem_cons_of_mem _ (hmem2 f i htl n kv2 hfn hmt)
      · next hnone =>
        obtain ⟨hA, hdisj⟩ := append_field_effect _ _ _ _ heq
        have hPop : SameCtx cg (popPath cg3) := bracket_ctx cg cg3 _ hA
        obtain ⟨hc, ts2, ht2, hsafe2, hmem2⟩ := ih (popPath cg3) st h
        have htrf : ∃ tsf, cg3.trace = (pushPath cg (idx : Int)).trace ++ tsf ∧
            ∀ e ∈ tsf, StructSafe e := by
          rcases hdisj with ⟨_, rfl⟩ | ⟨_, attr, htr⟩
          · exact ⟨[], by simp, by simp⟩
          · refine ⟨[Emitted.fieldDecl field.name _], htr, ?_⟩
            intro e he
            rcases List.mem_singleton.mp he with rfl
            intro fqn hcontra
            simp at hcontra
        obtain ⟨tsf, htf, hsafef⟩ := htrf
        refine ⟨sameCtx_trans hPop hc, tsf ++ ts2, ?_, ?_, ?_⟩
        · rw [ht2, popPath_trace, htf, pushPath_trace, List.append_assoc]
        · intro e he
          rcases List.mem_append.mp he with h1 | h2
          · exact hsafef e h1
          · exact hsafe2 e h2
        · intro f i hfi n kv2 hfn hmt
          rcases List.mem_cons.mp hfi with hhd | htl
          · simp only [Prod.mk.injEq] at hhd
            obtain ⟨rfl, rfl⟩ := hhd
            rw [hfn] at hnone
            simp only [Option.some_bind] at hnone
            rw [hmt] at hnone
            cases hnone
          · exact List.mem_append_right _ (hmem2 f i htl n kv2 hfn hmt)

/-- Effect of the oneof union-field loop: context preserved; only
oneof-field entries are added. -/
theorem append_message_oneof_fields_effect (mn fq : String)
    (ofields : List (Int × (FieldDescriptorProto × Nat))) :
    ∀ (oneofs : List OneofDescriptorProto) (idx : Nat) (cg st : CodeGenerator),
      append_message_oneof_fields cg mn fq ofields idx oneofs = .ok st →
      SameCtx cg st ∧ ∃ ts, st.trace = cg.trace ++ ts ∧ ∀ e ∈ ts, StructSafe e := by
  intro oneofs
  induction oneofs with
  | nil =>
    intro idx cg st h
    cases h
    exact ⟨sameCtx_refl _, [], by simp, by simp⟩
  | cons oneof rest ih =>
    intro idx cg st h
    unfold append_message_oneof_fields at h
    try simp only [] at h
    split at h
    · cases h
    · next cg3 heq =>
      split at heq
      · next fs hfs =>
        obtain ⟨hA, tA⟩ := append_oneof_field_effect _ _ _ _ _ _ heq
        have hPop : SameCtx cg (popPath cg3) := bracket_ctx cg cg3 _ hA
        obtain ⟨hc, ts2, ht2, hsafe2⟩ := ih (idx + 1) (popPath cg3) st h
        refine ⟨sameCtx_trans hPop hc,
          Emitted.oneofFieldDecl (to_snake mn ++ "::" ++ to_upper_camel oneof.name)
            (fs.map (fun p => p.1.number)) :: ts2, ?_, ?_⟩
        · rw [ht2, popPath_trace, tA, pushPath_trace]
          simp
        · intro e he
          rcases List.mem_cons.mp he with rfl | htl
          · intro fqn hcontra
            simp at hcontra
          · exact hsafe2 e htl
      · next hnone =>
        exact Except.noConfusion heq

/-- Effect of the nested-enum loop: context preserved; only enum
declarations and enum values are added. -/
theorem append_message_enums_effect :
    ∀ (enums : List EnumDescriptorProto) (idx : Nat) (cg st : CodeGenerator),
      append_message_enums cg idx enums = .ok st →
      SameCtx cg st ∧ ∃ ts, st.trace = cg.trace ++ ts ∧ ∀ e ∈ ts, StructSafe e := by
  intro enums
  induction enums with
  | nil =>
    intro idx cg st h
    cases h
    exact ⟨sameCtx_refl _, [], by simp, by simp⟩
  | cons en rest ih =>
    intro idx cg st h
    unfold append_message_enums at h
    try simp only [] at h
    split at h
    · cases h
    · next cg3 heq =>
      obtain ⟨hA, hskip, htr⟩ := append_enum_effect _ _ _ heq
      have hPop : SameCtx cg (popPath cg3) := bracket_ctx cg cg3 _ hA
      obtain ⟨hc, ts2, ht2, hsafe2⟩ := ih (idx + 1) (popPath cg3) st h
      have hts : ∃ tse, cg3.trace = (pushPath cg (idx : Int)).trace ++ tse ∧
          ∀ e ∈ tse, StructSafe e := by
        rcases hkk : known_type (pushPath cg (idx : Int)).config
            ("." ++ (pushPath cg (idx : Int)).package ++ "." ++ en.name) with _ | v
        · refine ⟨_, by rw [htr hkk, List.append_assoc], ?_⟩
          intro e he
          rcases List.mem_append.mp he with h1 | h2
          · rcases List.mem_singleton.mp h1 with rfl
            intro fqn hcontra
            simp at hcontra
          · obtain ⟨v2, _, rfl⟩ := List.mem_map.mp h2
            intro fqn hcontra
            simp at hcontra
        · have hskipped : cg3 = pushPath cg (idx : Int) := hskip (by rw [hkk]; rfl)
          exact ⟨[], by rw [hskipped]; simp, by simp⟩
      obtain ⟨tse, hte, hsafee⟩ := hts
      refine ⟨sameCtx_trans hPop hc, tse ++ ts2, ?_, ?_⟩
      · rw [ht2, popPath_trace, hte, pushPath_trace, List.append_assoc]
      · intro e he
        rcases List.mem_append.mp he with h1 | h2
        · exact hsafee e h1
        · exact hsafe2 e h2

/-- Effect of the oneof-declaration loop: context preserved; only oneof
union declarations are added. -/
theorem append_message_oneofs_effect (fq : String)
    (ofields : List (Int × (FieldDescriptorProto × Nat))) :
    ∀ (oneofs : List OneofDescriptorProto) (idx : Nat) (cg st : CodeGenerator),
      append_message_oneofs cg fq ofields idx oneofs = .ok st →
      SameCtx cg st ∧ ∃ ts, st.trace = cg.trace ++ ts ∧ ∀ e ∈ ts, StructSafe e := by
  intro oneofs
  induction oneofs with
  | nil =>
    intro idx cg st h
    cases h
    exact ⟨sameCtx_refl _, [], by simp, by simp⟩
  | cons oneof rest ih =>
    intro idx cg st h
    unfold append_message_oneofs at h
    try simp only [] at h
    split at h
    · cases h
    · next cg2 heq =>
      split at heq
      · next fs hfs =>
        obtain ⟨hA, tA⟩ := append_oneof_effect _ _ _ _ _ _ heq
        obtain ⟨hc, ts2, ht2, hsafe2⟩ := ih (idx + 1) cg2 st h
        refine ⟨sameCtx_trans hA hc, Emitted.oneofDecl (to_upper_camel oneof.name) :: ts2, ?_, ?_⟩
        · rw [ht2, tA]
          simp
        · intro e he
          rcases List.mem_cons.mp he with rfl | htl
          · intro fqn hcontra
            simp at hcontra
          · exact hsafe2 e htl
      · next hnone =>
        exact Except.noConfusion heq


theorem truncSuffix_no_dot : ∀ (m : List Char), m.contains '.' = false → truncSuffix m = none := by
  intro m
  induction m with
  | nil => intro _; rfl
  | cons c cs ih =>
    intro h
    simp only [List.contains_cons, Bool.or_eq_false_iff] at h
    have hc : c ≠ '.' := by
      intro hcc
      subst hcc
      simp at h
    unfold truncSuffix
    rw [ih h.2]
    simp only []
    rw [if_neg hc]

theorem truncSuffix_append (m : List Char) (hm : m.contains '.' = false) :
    ∀ (p : List Char), truncSuffix (p ++ '.' :: m) = some p := by
  intro p
  induction p with
  | nil =>
    simp only [List.nil_append]
    unfold truncSuffix
    rw [truncSuffix_no_dot m hm]
    simp
  | cons c cs ih =>
    simp only [List.cons_append]
    unfold truncSuffix
    rw [ih]

/-- Truncating at the last dot undoes appending a dot-free module segment:
the package restoration underlying `pop_mod`. -/
theorem truncateAtLastDot_append (p m : String) (hm : m.data.contains '.' = false) :
    truncateAtLastDot (p ++ "." ++ m) = some p := by
  unfold truncateAtLastDot
  have hd : (p ++ "." ++ m).data = p.data ++ '.' :: m.data := by
    simp [String.data_append]
  rw [hd, truncSuffix_append m.data hm p.data]
  rfl

theorem push_mod_parts (cg : CodeGenerator) (m : String) :
    (push_mod cg m).config = cg.config ∧ (push_mod cg m).package = cg.package ++ "." ++ m ∧
    (push_mod cg m).source_info = cg.source_info ∧ (push_mod cg m).dialect = cg.dialect ∧
    (push_mod cg m).is_nested = cg.is_nested ∧ (push_mod cg m).depth = cg.depth + 1 ∧
    (push_mod cg m).path = cg.path ∧ (push_mod cg m).trace = cg.trace := by
  cases cg
  exact ⟨rfl, rfl, rfl, rfl, rfl, rfl, rfl, rfl⟩

/-- A module push followed (after context-preserving work) by `pop_mod`
restores the context, package scope included, whenever the pushed module
segment is dot-free. -/
theorem pop_mod_effect (base mid st : CodeGenerator) (m : String)
    (hm : m.data.contains '.' = false)
    (h : SameCtx (push_mod base m) mid)
    (hpop : pop_mod mid = .ok st) :
    SameCtx base st ∧ st.trace = mid.trace := by
  obtain ⟨h1, h2, h3, h4, h5, h6, h7⟩ := h
  obtain ⟨p1, p2, p3, p4, p5, p6, p7, p8⟩ := push_mod_parts base m
  rw [p1] at h1
  rw [p2] at h2
  rw [p3] at h3
  rw [p4] at h4
  rw [p5] at h5
  rw [p6] at h6
  rw [p7] at h7
  cases mid with
  | mk cfg pkg si dia orac dep pa buf tr =>
    simp only [] at h1 h2 h3 h4 h5 h6 h7
    unfold pop_mod at hpop
    try simp only [] at hpop
    rw [h2] at hpop
    rw [truncateAtLastDot_append _ _ hm] at hpop
    try simp only [] at hpop
    cases hpop
    refine ⟨⟨h1, rfl, h3, h4, h5, ?_, h7⟩, rfl⟩
    show dep - 1 = base.depth
    omega


theorem ctxRestored_refl (cg : CodeGenerator) : CtxRestored cg cg :=
  ⟨rfl, rfl, rfl, rfl, rfl, rfl⟩

theorem ctxRestored_of_sameCtx {a b : CodeGenerator} (h : SameCtx a b) : CtxRestored a b :=
  ⟨h.1, h.2.2.1, h.2.2.2.1, h.2.2.2.2.1, h.2.2.2.2.2.1, h.2.2.2.2.2.2⟩

theorem ctxRestored_trans {a b c : CodeGenerator} (h1 : CtxRestored a b)
    (h2 : CtxRestored b c) : CtxRestored a c :=
  ⟨h2.1.trans h1.1, h2.2.1.trans h1.2.1, h2.2.2.1.trans h1.2.2.1,
   h2.2.2.2.1.trans h1.2.2.2.1, h2.2.2.2.2.1.trans h1.2.2.2.2.1,
   h2.2.2.2.2.2.trans h1.2.2.2.2.2⟩

theorem sameCtx_of_ctxRestored {a b : CodeGenerator} (h : CtxRestored a b)
    (hp : b.package = a.package) : SameCtx a b :=
  ⟨h.1, hp, h.2.1, h.2.2.1, h.2.2.2.1, h.2.2.2.2.1, h.2.2.2.2.2⟩

theorem popPath_package (m : CodeGenerator) : (popPath m).package = m.package := by
  rw [popPath_eq]

theorem pushPath_package (m : CodeGenerator) (i : Int) :
    (pushPath m i).package = m.package := by
  rw [pushPath_eq]

theorem bracket_ctxRestored (cg mid : CodeGenerator) (i : Int)
    (h : CtxRestored (pushPath cg i) mid) : CtxRestored cg (popPath mid) := by
  obtain ⟨h1, h2, h3, h4, h5, h6⟩ := h
  rw [pushPath_eq] at h1 h2 h3 h4 h5 h6
  simp only [] at h1 h2 h3 h4 h5 h6
  rw [popPath_eq]
  refine ⟨h1, h2, h3, h4, h5, ?_⟩
  show mid.path.dropLast = cg.path
  rw [h6]
  simp

theorem depth_bracket_ctx (base mid : CodeGenerator) (h : SameCtx (depthInc base) mid) :
    SameCtx base (depthDec mid) := by
  obtain ⟨h1, h2, h3, h4, h5, h6, h7⟩ := h
  rw [depthInc_eq] at h1 h2 h3 h4 h5 h6 h7
  simp only [] at h1 h2 h3 h4 h5 h6 h7
  rw [depthDec_eq]
  refine ⟨h1, h2, h3, h4, h5, ?_, h7⟩
  show mid.depth - 1 = base.depth
  omega

theorem pop_mod_parts (mid st : CodeGenerator) (hpop : pop_mod mid = .ok st) :
    st.config = mid.config ∧ st.source_info = mid.source_info ∧ st.dialect = mid.dialect ∧
    st.is_nested = mid.is_nested ∧ st.depth = mid.depth - 1 ∧ st.path = mid.path ∧
    st.trace = mid.trace := by
  cases mid with
  | mk cfg pkg si dia orac dep pa buf tr =>
    unfold pop_mod at hpop
    try simp only [] at hpop
    split at hpop
    · cases hpop
    · next pkg2 htrunc =>
      cases hpop
      exact ⟨rfl, rfl, rfl, rfl, rfl, rfl, rfl⟩

theorem partitionFields_mem (f : FieldDescriptorProto) (hf : f.oneof_index = none) :
    ∀ (l : List FieldDescriptorProto) (idx : Nat), f ∈ l →
      ∃ i, (f, i) ∈ (partitionFields idx l).1 := by
  intro l
  induction l with
  | nil =>
    intro idx h
    cases h
  | cons g rest ih =>
    intro idx h
    unfold partitionFields
    try simp only []
    rcases List.mem_cons.mp h with rfl | htl
    · rw [hf]
      exact ⟨idx, List.mem_cons_self _ _⟩
    · obtain ⟨i, hi⟩ := ih (idx + 1) htl
      rcases hoi : g.oneof_index with _ | oi
      · exact ⟨i, List.mem_cons_of_mem _ hi⟩
      · exact ⟨i, hi⟩


/-- The combined invariant of the mutual message recursion, proved by strong
induction on the descriptor size: every successful `append_message` call
satisfies `MsgProp` and every successful nested-loop call satisfies
`ListProp`. -/
theorem append_message_strong :
    ∀ (k : Nat),
      (∀ (msg : DescriptorProto), sizeOf msg ≤ k → ∀ (cg st : CodeGenerator),
        append_message cg msg = .ok st → MsgProp cg msg st) ∧
      (∀ (l : List DescriptorProto), sizeOf l ≤ k → ∀ (idx : Nat) (cg st : CodeGenerator),
        append_message_nested cg idx l = .ok st → ListProp cg l st) := by
  intro k
  induction k with
  | zero =>
    constructor
    · intro msg hsz
      exfalso
      cases msg
      simp only [DescriptorProto.mk.sizeOf_spec] at hsz
      omega
    · intro l hsz
      exfalso
      cases l with
      | nil => exact absurd hsz (by decide)
      | cons d rest =>
        simp only [List.cons.sizeOf_spec] at hsz
        omega
  | succ k ih =>
    obtain ⟨ihMsg, ihList⟩ := ih
    constructor
    · rintro ⟨mname, mfields, moneofs, mnested, menums, mopts⟩ hsz cg st h
      have hszn : sizeOf mnested ≤ k := by
        simp only [DescriptorProto.mk.sizeOf_spec] at hsz
        omega
      unfold append_message at h
      try simp only [] at h
      by_cases hknown : (known_type cg.config ("." ++ cg.package ++ "." ++ mname)).isSome = true
      · rw [if_pos hknown] at h
        cases h
        refine ⟨ctxRestored_refl _, fun _ => rfl, [], by simp, fun _ => by simp, ?_⟩
        intro hnone
        rw [hnone] at hknown
        simp at hknown
      · rw [if_neg hknown] at h
        split at h
        · cases h
        · next nt mt hpart =>
          try simp only [] at h
          split at h
          · cases h
          · next hcnt =>
            split at h
            · cases h
            · next cgA hdoc =>
              try simp only [] at h
              split at h
              · cases h
              · next cgB hattr =>
                try simp only [] at h
                split at h
                · cases h
                · next cgF hfieldsE =>
                  try simp only [] at h
                  split at h
                  · cases h
                  · next cgO honeofsE =>
                    try simp only [] at h
                    obtain ⟨hA, tA⟩ := append_doc_effect _ _ hdoc
                    obtain ⟨hP1, tP1⟩ := pushPair_ctx cgA "#[derive(Clone, PartialEq, Message)]\n"
                    obtain ⟨hB, tB⟩ := append_type_attributes_effect _ _ _ hattr
                    obtain ⟨hP2, tP2⟩ := pushPair_ctx cgB
                      ("pub struct " ++ to_upper_camel mname ++ " \x7b\n")
                    obtain ⟨hT, tT⟩ := appendTrace_ctx
                      (pushStr (pushIndent cgB) ("pub struct " ++ to_upper_camel mname ++ " \x7b\n"))
                      (Emitted.structDecl ("." ++ cg.package ++ "." ++ mname)
                        ((mopts.bind MessageOptions.map_entry).getD false))
                    obtain ⟨hF, tsF, tF, hsafeF, hmemF⟩ :=
                      append_message_fields_effect _ _ _ _ _ hfieldsE
                    obtain ⟨hO, tsO, tO, hsafeO⟩ :=
                      append_message_oneof_fields_effect _ _ _ _ _ _ _ honeofsE
                    have hF2 := bracket_ctx _ cgF 2 hF
                    have hO2b := bracket_ctx _ cgO 8 hO
                    have hD := depth_bracket_ctx _ (popPath cgO) (sameCtx_trans hF2 hO2b)
                    obtain ⟨hQ, tQ⟩ := pushPair_ctx (depthDec (popPath cgO)) "\x7d\n"
                    have hPre : SameCtx cg
                        (appendTrace
                          (pushStr (pushIndent cgB)
                            ("pub struct " ++ to_upper_camel mname ++ " \x7b\n"))
                          (Emitted.structDecl ("." ++ cg.package ++ "." ++ mname)
                            ((mopts.bind MessageOptions.map_entry).getD false))) :=
                      sameCtx_trans hA (sameCtx_trans hP1 (sameCtx_trans hB (sameCtx_trans hP2 hT)))
                    have hO2ctx : SameCtx cg
                        (pushStr (pushIndent (depthDec (popPath cgO))) "\x7d\n") :=
                      sameCtx_trans hPre (sameCtx_trans hD hQ)
                    have tO2 : (pushStr (pushIndent (depthDec (popPath cgO))) "\x7d\n").trace =
                        cg.trace ++
                          (Emitted.structDecl ("." ++ cg.package ++ "." ++ mname)
                            ((mopts.bind MessageOptions.map_entry).getD false) :: (tsF ++ tsO)) := by
                      rw [tQ, depthDec_popPath_trace, tO, pushPath_trace, popPath_trace, tF,
                        pushPath_trace, depthInc_trace, tT, tP2, tB, tP1, tA]
                      simp
                    split at h
                    · next hbranch =>
                      split at h
                      · cases h
                      · next cgN hnested =>
                        try simp only [] at h
                        split at h
                        · cases h
                        · next cgE henumsE =>
                          try simp only [] at h
                          split at h
                          · cases h
                          · next cgOn honeofs2 =>
                            obtain ⟨hNc, hNp, tsN, tN, hsafeN⟩ := ihList mnested hszn 0 _ cgN hnested
                            obtain ⟨hE, tsE, tE, hsafeE⟩ :=
                              append_message_enums_effect _ _ _ _ henumsE
                            obtain ⟨hOn, tsOn, tOn, hsafeOn⟩ :=
                              append_message_oneofs_effect _ _ _ _ _ _ honeofs2
                            have hN2 := bracket_ctxRestored _ cgN 3 hNc
                            have hE2 := bracket_ctx _ cgE 4 hE
                            have hMid : CtxRestored
                                (push_mod (pushStr (pushIndent (depthDec (popPath cgO))) "\x7d\n")
                                  mname) cgOn :=
                              ctxRestored_trans hN2
                                (ctxRestored_of_sameCtx (sameCtx_trans hE2 hOn))
                            obtain ⟨q1, q2, q3, q4, q5, q6, q7⟩ := pop_mod_parts cgOn st h
                            obtain ⟨m1, m2, m3, m4, m5, m6, m7, m8⟩ :=
                              push_mod_parts (pushStr (pushIndent (depthDec (popPath cgO))) "\x7d\n")
                                mname
                            have hctxO2 := ctxRestored_of_sameCtx hO2ctx
                            refine ⟨⟨?_, ?_, ?_, ?_, ?_, ?_⟩, ?_,
                              Emitted.structDecl ("." ++ cg.package ++ "." ++ mname)
                                ((mopts.bind MessageOptions.map_entry).getD false) ::
                                  (tsF ++ (tsO ++ (tsN ++ (tsE ++ tsOn)))), ?_, ?_, ?_⟩
                            · exact q1.trans (hMid.1.trans (m1.trans hctxO2.1))
                            · exact q2.trans (hMid.2.1.trans (m3.trans hctxO2.2.1))
                            · exact q3.trans (hMid.2.2.1.trans (m4.trans hctxO2.2.2.1))
                            · exact q4.trans (hMid.2.2.2.1.trans (m5.trans hctxO2.2.2.2.1))
                            · have e1 : cgOn.depth =
                                  (pushStr (pushIndent (depthDec (popPath cgO))) "\x7d\n").depth + 1 :=
                                hMid.2.2.2.2.1.trans m6
                              have e2 := hctxO2.2.2.2.2.1
                              rw [q5, e1, e2]
                              omega
                            · exact q6.trans (hMid.2.2.2.2.2.trans (m7.trans hctxO2.2.2.2.2.2))
                            · intro hdf
                              unfold dotFreeMsg at hdf
                              rw [Bool.and_eq_true, Bool.not_eq_true'] at hdf
                              obtain ⟨hmdot, hldot⟩ := hdf
                              have hpkgMid : cgOn.package =
                                  (push_mod (pushStr (pushIndent (depthDec (popPath cgO))) "\x7d\n")
                                    mname).package := by
                                rw [hOn.2.1, popPath_package, hE.2.1, pushPath_package,
                                  popPath_package, hNp hldot, pushPath_package]
                              have hSame := sameCtx_of_ctxRestored hMid hpkgMid
                              obtain ⟨hPop, _⟩ := pop_mod_effect _ cgOn st mname hmdot hSame h
                              exact hPop.2.1.trans hO2ctx.2.1
                            · rw [q7, tOn]
                              rw [show (popPath cgE).trace = cgE.trace from popPath_trace cgE]
                              rw [tE, pushPath_trace, popPath_trace, tN, pushPath_trace, m8, tO2]
                              simp
                            · intro hme e he
                              have hflag : ((mopts.bind MessageOptions.map_entry).getD false)
                                  = false := hme
                              rcases List.mem_cons.mp he with rfl | htl
                              · intro fq2 hcontra
                                simp only [Emitted.structDecl.injEq] at hcontra
                                rw [hcontra.2] at hflag
                                exact Bool.noConfusion hflag
                              · rcases List.mem_append.mp htl with h1 | h23
                                · exact hsafeF e h1
                                · rcases List.mem_append.mp h23 with h2 | h34
                                  · exact hsafeO e h2
                                  · rcases List.mem_append.mp h34 with h3 | h45
                                    · exact hsafeN e h3
                                    · rcases List.mem_append.mp h45 with h4 | h5
                                      · exact hsafeE e h4
                                      · exact hsafeOn e h5
                            · intro hnone f hfmem hfoi n kv nt2 mt2 hfn hpart2 hmt
                              rw [hpart] at hpart2
                              injection hpart2 with hpp
                              rw [Prod.mk.injEq] at hpp
                              obtain ⟨hnt, hmt2⟩ := hpp
                              subst hnt
                              subst hmt2
                              obtain ⟨i, hfi⟩ := partitionFields_mem f hfoi mfields 0 hfmem
                              have hin := hmemF f i hfi n kv hfn hmt
                              exact List.mem_cons_of_mem _
                                (List.mem_append_left _ hin)
                    · next hbranch =>
                      cases h
                      refine ⟨ctxRestored_of_sameCtx hO2ctx, fun _ => hO2ctx.2.1,
                        Emitted.structDecl ("." ++ cg.package ++ "." ++ mname)
                          ((mopts.bind MessageOptions.map_entry).getD false) :: (tsF ++ tsO),
                        tO2, ?_, ?_⟩
                      · intro hme e he
                        have hflag : ((mopts.bind MessageOptions.map_entry).getD false)
                            = false := hme
                        rcases List.mem_cons.mp he with rfl | htl
                        · intro fq2 hcontra
                          simp only [Emitted.structDecl.injEq] at hcontra
                          rw [hcontra.2] at hflag
                          exact Bool.noConfusion hflag
                        · rcases List.mem_append.mp htl with h1 | h2
                          · exact hsafeF e h1
                          · exact hsafeO e h2
                      · intro hnone f hfmem hfoi n kv nt2 mt2 hfn hpart2 hmt
                        rw [hpart] at hpart2
                        injection hpart2 with hpp
                        rw [Prod.mk.injEq] at hpp
                        obtain ⟨hnt, hmt2⟩ := hpp
                        subst hnt
                        subst hmt2
                        obtain ⟨i, hfi⟩ := partitionFields_mem f hfoi mfields 0 hfmem
                        have hin := hmemF f i hfi n kv hfn hmt
                        exact List.mem_cons_of_mem _ (List.mem_append_left _ hin)
    · intro l hsz idx cg st h
      cases l with
      | nil =>
        cases h
        exact ⟨ctxRestored_refl _, fun _ => rfl, [], by simp, by simp⟩
      | cons d rest =>
        have hszd : sizeOf d ≤ k := by
          simp only [List.cons.sizeOf_spec] at hsz
          omega
        have hszr : sizeOf rest ≤ k := by
          simp only [List.cons.sizeOf_spec] at hsz
          omega
        unfold append_message_nested at h
        split at h
        · next hme =>
          obtain ⟨hc, hp, ts, ht, hs⟩ := ihList rest hszr (idx + 1) cg st h
          refine ⟨hc, ?_, ts, ht, hs⟩
          intro hdf
          unfold dotFreeList at hdf
          rw [Bool.and_eq_true] at hdf
          exact hp hdf.2
        · next hme =>
          try simp only [] at h
          split at h
          · cases h
          · next cg3 hmsg =>
            obtain ⟨hcM, hpM, tsM, htM, hsM, _⟩ := ihMsg d hszd (pushPath cg (idx : Int)) cg3 hmsg
            obtain ⟨hcR, hpR, tsR, htR, hsR⟩ := ihList rest hszr (idx + 1) (popPath cg3) st h
            have hcPop : CtxRestored cg (popPath cg3) := bracket_ctxRestored cg cg3 _ hcM
            refine ⟨ctxRestored_trans hcPop hcR, ?_, tsM ++ tsR, ?_, ?_⟩
            · intro hdf
              unfold dotFreeList at hdf
              rw [Bool.and_eq_true] at hdf
              rw [hpR hdf.2, popPath_package, hpM hdf.1, pushPath_package]
            · rw [htR, popPath_trace, htM, pushPath_trace, List.append_assoc]
            · intro e he
              rcases List.mem_append.mp he with h1 | h2
              · exact hsM (Bool.not_eq_true _ ▸ hme) e h1
              · exact hsR e h2


/-- C7: for every message that is not itself a map-entry, the generated
trace never contains a standalone declaration flagged as a synthetic
map-entry, and every non-oneof field whose type name matches a collected
map-entry nested type is emitted as an associative-container field built
from the entry's key and value field pair. -/
theorem c7_map_entry_collapsed (cg st : CodeGenerator) (msg : DescriptorProto)
    (hok : append_message cg msg = .ok st)
    (hme : isMapEntry msg = false) (hstart : cg.trace = []) :
    (∀ fq, Emitted.structDecl fq true ∉ st.trace) ∧
    (known_type cg.config ("." ++ cg.package ++ "." ++ msg.name) = none →
      ∀ f ∈ msg.field, f.oneof_index = none →
      ∀ n kv nt mt, f.type_name = some n →
        partitionNestedTypes ("." ++ cg.package ++ "." ++ msg.name) 0 msg.nested_type =
          .ok (nt, mt) →
        mapTypesGet mt n = some kv →
        Emitted.fieldDecl f.name (FieldKind.mapField kv.1 kv.2) ∈ st.trace) := by
  obtain ⟨_, _, ts, ht, hsafe, hmem⟩ :=
    (append_message_strong (sizeOf msg)).1 msg (le_refl _) cg st hok
  constructor
  · intro fq hin
    rw [ht, hstart] at hin
    simp only [List.nil_append] at hin
    exact (hsafe hme _ hin) fq rfl
  · intro hnone f hf hfoi n kv nt mt hfn hpart hmt
    rw [ht]
    exact List.mem_append_right _ (hmem hnone f hf hfoi n kv nt mt hfn hpart hmt)

/-- Witness for C7: the message `M` with the synthetic map-entry
`ItemsEntry` and field `items` of that type gets no standalone declaration
for the entry, and `items` becomes an associative-container field from the
`key`/`value` pair. -/
theorem c7_witness :
    isMapEntry c7Msg = false ∧
    ∃ st, append_message c7Cg c7Msg = .ok st ∧
      (∀ fq, Emitted.structDecl fq true ∉ st.trace) ∧
      Emitted.fieldDecl "items" (FieldKind.mapField c7KeyField c7ValueField) ∈ st.trace := by
  refine ⟨rfl, ?_⟩
  obtain ⟨st, hst⟩ : ∃ st, append_message c7Cg c7Msg = .ok st := ⟨_, rfl⟩
  obtain ⟨h1, h2⟩ := c7_map_entry_collapsed c7Cg st c7Msg hst rfl rfl
  refine ⟨st, hst, h1, ?_⟩
  exact h2 rfl c7MapField (List.mem_cons_self _ _) rfl ".test.M.ItemsEntry"
    (c7KeyField, c7ValueField) [] [(".test.M.ItemsEntry", (c7KeyField, c7ValueField))]
    rfl rfl rfl

/-- C10: every successful `append_message` call (on a schema-valid
descriptor, whose identifiers are dot-free) and every successful
`append_enum` call returns with the structural path, the indentation depth
and the dotted package scope equal to their values on entry, including the
early return that skips well-known/overridden types. -/
theorem c10_context_restored :
    (∀ (cg st : CodeGenerator) (msg : DescriptorProto), dotFreeMsg msg = true →
      append_message cg msg = .ok st →
      st.path = cg.path ∧ st.depth = cg.depth ∧ st.package = cg.package) ∧
    (∀ (cg st : CodeGenerator) (desc : EnumDescriptorProto),
      append_enum cg desc = .ok st →
      st.path = cg.path ∧ st.depth = cg.depth ∧ st.package = cg.package) := by
  constructor
  · intro cg st msg hdf h
    obtain ⟨hc, hp, _⟩ := (append_message_strong (sizeOf msg)).1 msg (le_refl _) cg st h
    exact ⟨hc.2.2.2.2.2, hc.2.2.2.2.1, hp hdf⟩
  · intro cg st desc h
    obtain ⟨hc, _, _⟩ := append_enum_effect cg st desc h
    exact ⟨hc.2.2.2.2.2.2, hc.2.2.2.2.2.1, hc.2.1⟩

/-- Witness for C10: a message with a nested message and a nested enum
(exercising the module push/pop and every path push) and a direct enum call
both restore path, depth and package. -/
theorem c10_witness :
    dotFreeMsg c10Msg = true ∧
    (∃ st, append_message c10Cg c10Msg = .ok st ∧
      st.path = c10Cg.path ∧ st.depth = c10Cg.depth ∧ st.package = c10Cg.package) ∧
    (∃ st, append_enum c10Cg c10Enum = .ok st ∧
      st.path = c10Cg.path ∧ st.depth = c10Cg.depth ∧ st.package = c10Cg.package) := by
  refine ⟨by decide, ?_, ?_⟩
  · obtain ⟨st, hst⟩ : ∃ st, append_message c10Cg c10Msg = .ok st := ⟨_, rfl⟩
    exact ⟨st, hst, c10_context_restored.1 c10Cg st c10Msg (by decide) hst⟩
  · obtain ⟨st, hst⟩ : ∃ st, append_enum c10Cg c10Enum = .ok st := ⟨_, rfl⟩
    exact ⟨st, hst, c10_context_restored.2 c10Cg st c10Enum hst⟩

end Prost
